import Mathlib

/-!
Verification of the withsqlite mapping store (src/withsqlite.py).

The store backs a dict-like object on one sqlite table of rows
(key text unique, val text).  Values are serialized with the json module:
sqlite_db.jsonize quotes a plain string verbatim (a fast path) and passes
every other value through json.dumps with default=to_json, sort_keys=True
and indent=3; reads decode the stored text with json.loads.

Modelling conventions, fixed throughout this file:
- JVal is the type of logical values.  Numbers are modelled as integers
  (floats are outside the model; no claim depends on them).  Python
  dictionaries are modelled as association lists; dict equality in Python
  ignores order and forbids duplicate keys, so a dict is represented
  canonically with strictly key-sorted members, and the canon predicate
  below states that representation invariant.  The two unsupported kinds
  the repository exercises are modelled by the constructors timeStruct
  (a time.struct_time carrying its asctime rendering) and other (any other
  non-serializable object carrying its str() rendering).
- The json library is external to the repository; render / pyLoads below
  model json.dumps respectively json.loads of Python 2 faithfully on the
  modelled fragment: ensure_ascii escaping with surrogate pairs on output,
  strict rejection of raw control characters on input, whitespace
  skipping, integer numerals, and a trailing-data check.
- The sqlite table is modelled as the list of its rows in physical order,
  each row a (key, stored text) pair; every statement the class issues
  (select / insert / update or fail / delete / count) is translated row
  by row.  A raised KeyError or ValueError is an Except error value.
-/

/-- A logical value of the store: the JSON kinds (with integer numbers), plus
the two non-serializable kinds the repository exercises. -/
inductive JVal where
  | null
  | bool (b : Bool)
  | num (n : Int)
  | str (s : String)
  | arr (xs : List JVal)
  | obj (ms : List (String × JVal))
  | timeStruct (asc : String)
  | other (s : String)

mutual

/-- Structural equality test on values, mirroring Python equality on the
modelled fragment (dicts being kept in canonical key order). -/
def beqVal : JVal → JVal → Bool
  | .null, .null => true
  | .bool a, .bool b => decide (a = b)
  | .num a, .num b => decide (a = b)
  | .str a, .str b => decide (a = b)
  | .arr xs, .arr ys => beqArr xs ys
  | .obj ms, .obj ns => beqMems ms ns
  | .timeStruct a, .timeStruct b => decide (a = b)
  | .other a, .other b => decide (a = b)
  | _, _ => false

def beqArr : List JVal → List JVal → Bool
  | [], [] => true
  | x :: xs, y :: ys => beqVal x y && beqArr xs ys
  | _, _ => false

def beqMems : List (String × JVal) → List (String × JVal) → Bool
  | [], [] => true
  | (k, v) :: ms, (l, w) :: ns => decide (k = l) && beqVal v w && beqMems ms ns
  | _, _ => false

end

mutual

def beqVal_iff : ∀ v w, beqVal v w = true ↔ v = w
  | .null, w => by cases w <;> simp [beqVal]
  | .bool a, w => by cases w <;> simp [beqVal]
  | .num a, w => by cases w <;> simp [beqVal]
  | .str a, w => by cases w <;> simp [beqVal]
  | .arr xs, w => by
      cases w <;> simp [beqVal]
      exact beqArr_iff xs _
  | .obj ms, w => by
      cases w <;> simp [beqVal]
      exact beqMems_iff ms _
  | .timeStruct a, w => by cases w <;> simp [beqVal]
  | .other a, w => by cases w <;> simp [beqVal]

def beqArr_iff : ∀ xs ys, beqArr xs ys = true ↔ xs = ys
  | [], ys => by cases ys <;> simp [beqArr]
  | x :: xs, ys => by
      cases ys with
      | nil => simp [beqArr]
      | cons y ys =>
          simp [beqArr, Bool.and_eq_true, beqVal_iff x y, beqArr_iff xs ys]

def beqMems_iff : ∀ ms ns, beqMems ms ns = true ↔ ms = ns
  | [], ns => by cases ns <;> simp [beqMems]
  | (k, v) :: ms, ns => by
      cases ns with
      | nil => simp [beqMems]
      | cons n ns =>
          obtain ⟨l, w⟩ := n
          simp [beqMems, Bool.and_eq_true, beqVal_iff v w, beqMems_iff ms ns,
            Prod.ext_iff, and_assoc]

end

instance instDecidableEqJVal : DecidableEq JVal :=
  fun v w => decidable_of_iff (beqVal v w = true) (beqVal_iff v w)

/-- Models to_json (src/withsqlite.py lines 26-32), the hook passed to
json.dumps as its default encoder.  json.dumps invokes it exactly on the
values it cannot serialize, i.e. the two unsupported constructors of the
model; str(python_object) is the text those constructors carry.  The
catch-all arm is never reached by the encoder. -/
def to_json : JVal → JVal
  | .timeStruct t =>
      .obj [("__class__", .str "time.asctime"), ("__value__", .str t)]
  | .other s =>
      .obj [("__class__", .str "basestring"), ("__value__", .str s)]
  | v => v

/-! ### The encoder: json.dumps with default=to_json, sort_keys=True, indent=3

Output is built as a character list; jsonize alone applies a String wrapper
at the very end.  Integer printing uses an explicit fuel so that every
definition reduces inside the kernel. -/

/-- Decimal digit character for a value below ten. -/
def digitChar (d : Nat) : Char := Char.ofNat (48 + d)

/-- Decimal digits of a natural number, most significant first; fuel-driven so
that it is structurally recursive (any fuel at least the number works, see
natChars_congr). -/
def natChars : Nat → Nat → List Char
  | 0, n => [digitChar n]
  | f + 1, n => if n < 10 then [digitChar n] else natChars f (n / 10) ++ [digitChar (n % 10)]

/-- Decimal representation of a natural number, as printed by str() in Python. -/
def natDigits (n : Nat) : List Char := natChars n n

/-- Decimal representation of an integer, as printed by str() in Python. -/
def intChars (i : Int) : List Char :=
  if i < 0 then '-' :: natDigits i.natAbs else natDigits i.natAbs

/-- Lower-case hexadecimal digit character for a value below sixteen. -/
def hexDigitChar (d : Nat) : Char :=
  if d < 10 then Char.ofNat (48 + d) else Char.ofNat (87 + d)

/-- Exactly four hexadecimal digits, as in the \uXXXX escapes of json.dumps. -/
def hex4Chars (n : Nat) : List Char :=
  [hexDigitChar (n / 4096 % 16), hexDigitChar (n / 256 % 16),
   hexDigitChar (n / 16 % 16), hexDigitChar (n % 16)]

/-- A backslash-u escape of a code unit below 0x10000. -/
def uEscape (n : Nat) : List Char := '\\' :: 'u' :: hex4Chars n

/-- JSON escape of one character, as emitted by json.dumps with the default
ensure_ascii=True: two-character escapes for the specials, \uXXXX for other
control characters and for everything outside printable ASCII, and a
surrogate pair for characters beyond the basic multilingual plane. -/
def escChar (c : Char) : List Char :=
  if c = '"' then ['\\', '"']
  else if c = '\\' then ['\\', '\\']
  else if c = '\n' then ['\\', 'n']
  else if c = '\r' then ['\\', 'r']
  else if c = '\t' then ['\\', 't']
  else if c.toNat = 8 then ['\\', 'b']
  else if c.toNat = 12 then ['\\', 'f']
  else if c.toNat < 0x20 then uEscape c.toNat
  else if c.toNat ≤ 0x7e then [c]
  else if c.toNat < 0x10000 then uEscape c.toNat
  else uEscape (0xd800 + (c.toNat - 0x10000) / 0x400) ++
       uEscape (0xdc00 + (c.toNat - 0x10000) % 0x400)

/-- A string rendered as a JSON string token: quoted and escaped. -/
def renderStr (s : String) : List Char :=
  '"' :: (s.data.flatMap escChar ++ ['"'])

/-- The indentation emitted for nesting level produced by indent=3. -/
def spaces (n : Nat) : List Char := List.replicate n ' '

/-- Left brace character (written by escape code to keep a raw brace out of
the file's literals). -/
abbrev lbrace : Char := '\x7b'

/-- Right brace character. -/
abbrev rbrace : Char := '\x7d'

/-- Rendering of the tagged object produced by the to_json fallback hook,
spelled out so that the render recursion below stays structural; it equals
render applied to that object (render_hook_timeStruct, render_hook_other). -/
def renderTagged (cls tval : String) (lv : Nat) : List Char :=
  lbrace :: '\n' ::
    (spaces (3 * (lv + 1)) ++
      (renderStr "__class__" ++ ':' :: ' ' ::
        (renderStr cls ++
          (',' :: '\n' ::
            (spaces (3 * (lv + 1)) ++
              (renderStr "__value__" ++ ':' :: ' ' :: (renderStr tval ++ [])))) ++
          ('\n' :: (spaces (3 * lv) ++ [rbrace])))))

mutual

/-- Rendering of a value at a nesting level: the output of json.dumps with
sort_keys=True and indent=3 on a value whose member lists are already in
sorted key order (jsonize below applies sortAll first, which models
sort_keys).  The two non-serializable constructors render through the
to_json default hook as the tagged object. -/
def render : JVal → Nat → List Char
  | .null, _ => ['n', 'u', 'l', 'l']
  | .bool true, _ => ['t', 'r', 'u', 'e']
  | .bool false, _ => ['f', 'a', 'l', 's', 'e']
  | .num n, _ => intChars n
  | .str s, _ => renderStr s
  | .arr [], _ => ['[', ']']
  | .arr (x :: xs), lv =>
      '[' :: '\n' ::
        (spaces (3 * (lv + 1)) ++
          (render x (lv + 1) ++ renderTail xs (lv + 1) ++
            ('\n' :: (spaces (3 * lv) ++ [']']))))
  | .obj [], _ => [lbrace, rbrace]
  | .obj ((k, v) :: ms), lv =>
      lbrace :: '\n' ::
        (spaces (3 * (lv + 1)) ++
          (renderStr k ++ ':' :: ' ' ::
            (render v (lv + 1) ++ renderMTail ms (lv + 1) ++
              ('\n' :: (spaces (3 * lv) ++ [rbrace])))))
  | .timeStruct t, lv => renderTagged "time.asctime" t lv
  | .other s, lv => renderTagged "basestring" s lv

/-- The remaining elements of an array after the first: a comma, a newline and
indentation before each one. -/
def renderTail : List JVal → Nat → List Char
  | [], _ => []
  | y :: ys, lv =>
      ',' :: '\n' :: (spaces (3 * lv) ++ (render y lv ++ renderTail ys lv))

/-- The remaining members of an object after the first. -/
def renderMTail : List (String × JVal) → Nat → List Char
  | [], _ => []
  | (k, v) :: ms, lv =>
      ',' :: '\n' ::
        (spaces (3 * lv) ++
          (renderStr k ++ ':' :: ' ' :: (render v lv ++ renderMTail ms lv)))

end

/-- Lexicographic comparison of character lists by code point, the order in
which Python compares unicode strings (spelled out so that it reduces inside
the kernel, unlike the iterator-based core order on String). -/
def charListLt : List Char → List Char → Bool
  | _, [] => false
  | [], _ :: _ => true
  | a :: as, b :: bs =>
      if a.toNat < b.toNat then true
      else if b.toNat < a.toNat then false
      else charListLt as bs

/-- Strict code-point order on strings, as Python compares dict keys. -/
def strLt (a b : String) : Bool := charListLt a.data b.data

/-- The reflexive closure of strLt. -/
def strLe (a b : String) : Bool := strLt a b || decide (a = b)

mutual

/-- Recursively bring every object member list into sorted key order: the
effect of sort_keys=True in jsonize.  On a value whose objects are already
sorted (the canonical dict representation) this is the identity. -/
def sortAll : JVal → JVal
  | .arr xs => .arr (sortAllArr xs)
  | .obj ms =>
      .obj (List.insertionSort (fun a b : String × JVal => strLe a.1 b.1 = true) (sortAllMems ms))
  | v => v

def sortAllArr : List JVal → List JVal
  | [] => []
  | x :: xs => sortAll x :: sortAllArr xs

def sortAllMems : List (String × JVal) → List (String × JVal)
  | [] => []
  | (k, v) :: ms => (k, sortAll v) :: sortAllMems ms

end

/-- Models sqlite_db.jsonize (src/withsqlite.py lines 164-168): a plain string
value is quoted verbatim, with no escaping, by the format-string fast path;
every other value goes through json.dumps(val, default=to_json,
sort_keys=True, indent=3). -/
def jsonize (val : JVal) : String :=
  match val with
  | .str s => String.mk ('"' :: (s.data ++ ['"']))
  | v => String.mk (render (sortAll v) 0)

/-! ### The decoder: json.loads

A strict recursive-descent parser over the character list, structural on an
explicit fuel so that every definition reduces inside the kernel; pyLoads
supplies one more than the input length, which suffices because every
recursive call is made behind at least one consumed character. -/

/-- JSON whitespace, per the json module. -/
def isWsChar (c : Char) : Bool :=
  c = ' ' || c = '\t' || c = '\n' || c = '\r'

/-- Drop leading JSON whitespace. -/
def skipWs : List Char → List Char
  | c :: cs => if isWsChar c then skipWs cs else c :: cs
  | [] => []

/-- Decimal digit test. -/
def isDigitChar (c : Char) : Bool := 48 ≤ c.toNat && c.toNat ≤ 57

/-- Value of one hexadecimal digit character, either case. -/
def hexVal (c : Char) : Option Nat :=
  if 48 ≤ c.toNat ∧ c.toNat ≤ 57 then some (c.toNat - 48)
  else if 97 ≤ c.toNat ∧ c.toNat ≤ 102 then some (c.toNat - 87)
  else if 65 ≤ c.toNat ∧ c.toNat ≤ 70 then some (c.toNat - 55)
  else none

/-- Value of four hexadecimal digit characters. -/
def hex4 (a b c d : Char) : Option Nat :=
  match hexVal a, hexVal b, hexVal c, hexVal d with
  | some va, some vb, some vc, some vd => some (((va * 16 + vb) * 16 + vc) * 16 + vd)
  | _, _, _, _ => none

/-- The single-character escapes json.loads accepts after a backslash. -/
def unescChar : Char → Option Char
  | '"' => some '"'
  | '\\' => some '\\'
  | '/' => some '/'
  | 'b' => some (Char.ofNat 8)
  | 'f' => some (Char.ofNat 12)
  | 'n' => some '\n'
  | 'r' => some '\r'
  | 't' => some '\t'
  | _ => none

mutual

/-- Body of a JSON string after the opening quote, in strict mode: a raw
control character is an error, an escape is handled by parseStrEsc, and the
closing quote ends the string. -/
def parseStrAux (acc : List Char) : List Char → Option (List Char × List Char)
  | [] => none
  | c :: rest =>
    if c = '"' then some (acc.reverse, rest)
    else if c = '\\' then parseStrEsc acc rest
    else if c.toNat < 0x20 then none
    else parseStrAux (c :: acc) rest

/-- One escape sequence after a backslash: a single-character escape, or a
backslash-u escape; one in the high surrogate range must be followed by a
low surrogate escape and the pair is combined (a lone surrogate cannot
inhabit a Lean Char and is modelled as a failure). -/
def parseStrEsc (acc : List Char) : List Char → Option (List Char × List Char)
  | 'u' :: a :: b :: d :: e :: r2 =>
      match hex4 a b d e with
      | some n =>
          if n < 0xd800 ∨ 0xdfff < n then parseStrAux (Char.ofNat n :: acc) r2
          else if n ≤ 0xdbff then parseStrLow acc n r2
          else none
      | none => none
  | e :: r2 =>
      match unescChar e with
      | some ch => parseStrAux (ch :: acc) r2
      | none => none
  | [] => none

/-- The required low surrogate escape after a high surrogate code unit n. -/
def parseStrLow (acc : List Char) (n : Nat) : List Char → Option (List Char × List Char)
  | '\\' :: 'u' :: a2 :: b2 :: d2 :: e2 :: r3 =>
      match hex4 a2 b2 d2 e2 with
      | some m =>
          if 0xdc00 ≤ m ∧ m ≤ 0xdfff then
            parseStrAux (Char.ofNat (0x10000 + (n - 0xd800) * 0x400 + (m - 0xdc00)) :: acc) r3
          else none
      | none => none
  | _ => none

end

/-- Longest leading run of decimal digits. -/
def takeDigits : List Char → List Char × List Char
  | c :: cs =>
      if isDigitChar c then
        let (ds, r) := takeDigits cs
        (c :: ds, r)
      else ([], c :: cs)
  | [] => ([], [])

/-- Numeric value of a run of decimal digit characters. -/
def digitsVal (ds : List Char) : Nat :=
  ds.foldl (fun acc c => acc * 10 + (c.toNat - 48)) 0

/-- Unsigned integer numeral, per the number grammar of the json module: a
single zero, or a nonzero digit followed by any digits. -/
def parseIntAux : List Char → Option (Nat × List Char)
  | c :: rest =>
      if c = '0' then some (0, rest)
      else if isDigitChar c then
        let (ds, r) := takeDigits rest
        some (digitsVal (c :: ds), r)
      else none
  | [] => none

/-- A numeral not continued by a fraction or exponent part.  The json module
would parse a float there; floats are outside the model, so the decoder
fails on them (the encoder of the model never emits one). -/
def noFloatNext : List Char → Bool
  | c :: _ => !(c = '.' || c = 'e' || c = 'E')
  | [] => true

/-- Integer numeral with optional leading minus sign. -/
def parseNum (cs : List Char) : Option (Int × List Char) :=
  match cs with
  | '-' :: r =>
      match parseIntAux r with
      | some (n, r2) => if noFloatNext r2 then some (-(n : Int), r2) else none
      | none => none
  | cs2 =>
      match parseIntAux cs2 with
      | some (n, r2) => if noFloatNext r2 then some ((n : Int), r2) else none
      | none => none

mutual

/-- One JSON value, fuel-driven: literals, strings, numbers, arrays and
objects, with whitespace skipped in the places the json module skips it. -/
def parseVal : Nat → List Char → Option (JVal × List Char)
  | 0, _ => none
  | fuel + 1, cs =>
    match skipWs cs with
    | 'n' :: 'u' :: 'l' :: 'l' :: r => some (.null, r)
    | 't' :: 'r' :: 'u' :: 'e' :: r => some (.bool true, r)
    | 'f' :: 'a' :: 'l' :: 's' :: 'e' :: r => some (.bool false, r)
    | '"' :: r =>
        match parseStrAux [] r with
        | some (chars, r2) => some (.str (String.mk chars), r2)
        | none => none
    | '[' :: r =>
        match skipWs r with
        | ']' :: r2 => some (.arr [], r2)
        | r1 =>
            match parseElems fuel r1 with
            | some (es, r2) => some (.arr es, r2)
            | none => none
    | '\x7b' :: r =>
        match skipWs r with
        | '\x7d' :: r2 => some (.obj [], r2)
        | r1 =>
            match parseMembers fuel r1 with
            | some (ms, r3) => some (.obj ms, r3)
            | none => none
    | c :: r =>
        if c = '-' || isDigitChar c then
          match parseNum (c :: r) with
          | some (n, r2) => some (.num n, r2)
          | none => none
        else none
    | [] => none

/-- One or more comma-separated array elements, ended by a closing bracket. -/
def parseElems : Nat → List Char → Option (List JVal × List Char)
  | 0, _ => none
  | fuel + 1, cs =>
    match parseVal fuel cs with
    | some (v, r) =>
        match skipWs r with
        | ',' :: r2 =>
            match parseElems fuel (skipWs r2) with
            | some (vs, r3) => some (v :: vs, r3)
            | none => none
        | ']' :: r2 => some ([v], r2)
        | _ => none
    | none => none

/-- One or more comma-separated object members, ended by a closing brace. -/
def parseMembers : Nat → List Char → Option (List (String × JVal) × List Char)
  | 0, _ => none
  | fuel + 1, cs =>
    match skipWs cs with
    | '"' :: r =>
        match parseStrAux [] r with
        | some (key, r1) =>
            match skipWs r1 with
            | ':' :: r2 =>
                match parseVal fuel (skipWs r2) with
                | some (v, r3) =>
                    match skipWs r3 with
                    | ',' :: r4 =>
                        match parseMembers fuel (skipWs r4) with
                        | some (ms, r5) => some ((String.mk key, v) :: ms, r5)
                        | none => none
                    | '\x7d' :: r4 => some ([(String.mk key, v)], r4)
                    | _ => none
                | none => none
            | _ => none
        | none => none
    | _ => none

end

/-- Models json.loads on the stored text: parse one value and require that
only whitespace follows it. -/
def pyLoads (s : String) : Option JVal :=
  match parseVal (s.data.length + 1) s.data with
  | some (v, r) => if skipWs r = [] then some v else none
  | none => none

/-! ### The store: one sqlite table as the list of its rows

A Store is the table contents in physical row order; each row holds the key
and the stored value text.  Errors the Python methods can raise are Except
error values: KeyError from a missing row, ValueError from json.loads on an
undecodable stored text (only KeyError is ever caught by the class). -/

/-- Table state: rows in physical order, each (key, stored value text). -/
abbrev Store := List (String × String)

/-- Errors raised by the dict operations. -/
inductive DbErr where
  | keyError
  | valueError
deriving DecidableEq

instance instDecidableEqExcept {ε α : Type} [DecidableEq ε] [DecidableEq α] :
    DecidableEq (Except ε α) := fun x y =>
  match x, y with
  | .ok a, .ok b => decidable_of_iff (a = b) (by simp)
  | .error e, .error f => decidable_of_iff (e = f) (by simp)
  | .ok _, .error _ => isFalse (by simp)
  | .error _, .ok _ => isFalse (by simp)

/-- The row text returned by: select val from table where key=? followed by
fetchone() — the first matching row in physical order, if any. -/
def lookupVal (s : Store) (k : String) : Option String :=
  (s.find? (fun r => r.1 = k)).map (fun r => r.2)

/-- Models sqlite_db.__getitem__ (src/withsqlite.py lines 181-189): select the
value text for the key; a missing row raises KeyError(key); the stored text
is decoded with json.loads, which raises ValueError on undecodable text. -/
def getitem (s : Store) (k : String) : Except DbErr JVal :=
  match lookupVal s k with
  | none => .error .keyError
  | some t =>
      match pyLoads t with
      | some v => .ok v
      | none => .error .valueError

/-- The effect of: update or fail table set val=? where key==? — every row
whose key matches gets the new value text, all other rows are untouched. -/
def updateVal (s : Store) (k : String) (t : String) : Store :=
  s.map (fun r => if r.1 = k then (r.1, t) else r)

/-- Models sqlite_db.__setitem__ (src/withsqlite.py lines 170-179): read the
current value for the key; if the new value equals it, return without
writing; otherwise update the existing row, and on KeyError insert a new
row at the end.  A ValueError from decoding the existing row is not caught
and propagates. -/
def setitem (s : Store) (k : String) (v : JVal) : Except DbErr Store :=
  match getitem s k with
  | .ok w => if v = w then .ok s else .ok (updateVal s k (jsonize v))
  | .error .keyError => .ok (s ++ [(k, jsonize v)])
  | .error .valueError => .error .valueError

/-- Models sqlite_db.__delitem__ (src/withsqlite.py lines 159-162): delete
from table where key=? — removes every matching row, silently doing
nothing when none matches. -/
def delitem (s : Store) (k : String) : Store :=
  s.filter (fun r => ¬ r.1 = k)

/-- Models sqlite_db.__contains__ (src/withsqlite.py lines 191-196): the
count of rows with the key is nonzero. -/
def contains (s : Store) (k : String) : Bool :=
  decide (s.countP (fun r => r.1 = k) ≠ 0)

/-- Models sqlite_db.__len__: select COUNT(*) from table. -/
def dbLen (s : Store) : Nat := s.length

/-- Models sqlite_db.keys: select key from table, in physical order. -/
def dbKeys (s : Store) : List String := s.map (fun r => r.1)

/-- Models sqlite_db.values: select val from table and json.loads each text
in physical order; the first undecodable text raises. -/
def dbValues (s : Store) : Option (List JVal) :=
  s.mapM (fun r => pyLoads r.2)

/-- Models sqlite_db.items: select * from table and decode each row's value
text in physical order; the first undecodable text raises. -/
def dbItems (s : Store) : Option (List (String × JVal)) :=
  s.mapM (fun r => (pyLoads r.2).map (fun v => (r.1, v)))

/-- Models sqlite_db.get (src/withsqlite.py lines 221-226): getitem, with
KeyError alone converted to the default (None when omitted, i.e. null). -/
def getDefault (s : Store) (k : String) (x : JVal) : Except DbErr JVal :=
  match getitem s k with
  | .ok v => .ok v
  | .error .keyError => .ok x
  | .error .valueError => .error .valueError

/-- Models sqlite_db.clear: delete from table, removing every row. -/
def dbClear (_ : Store) : Store := []

/-- One mutating dict operation, for the reachable-state invariant. -/
inductive Op where
  | set (k : String) (v : JVal)
  | del (k : String)
  | clear

/-- Apply one operation; an uncaught exception aborts the run. -/
def applyOp (s : Store) : Op → Except DbErr Store
  | .set k v => setitem s k v
  | .del k => .ok (delitem s k)
  | .clear => .ok (dbClear s)

/-- Run a sequence of operations, stopping at the first uncaught exception. -/
def runOps : Store → List Op → Except DbErr Store
  | s, [] => .ok s
  | s, op :: ops =>
      match applyOp s op with
      | .ok s2 => runOps s2 ops
      | .error e => .error e

/-! ### Supported values and round-trippability -/

/-- Strict key order on members of an object, the canonical representation of
a Python dict in this model. -/
def sortedKeys : List (String × JVal) → Bool
  | [] => true
  | [_] => true
  | a :: b :: t => strLt a.1 b.1 && sortedKeys (b :: t)

mutual

/-- Supported values: built only from null, booleans, numbers, texts,
sequences and mappings, with every mapping in canonical (strictly
key-sorted, hence duplicate-free) form. -/
def canon : JVal → Bool
  | .null => true
  | .bool _ => true
  | .num _ => true
  | .str _ => true
  | .arr xs => canonArr xs
  | .obj ms => sortedKeys ms && canonMems ms
  | .timeStruct _ => false
  | .other _ => false

def canonArr : List JVal → Bool
  | [] => true
  | x :: xs => canon x && canonArr xs

def canonMems : List (String × JVal) → Bool
  | [] => true
  | (_, v) :: ms => canon v && canonMems ms

end

/-- A text is safe for the verbatim-quoting fast path exactly when it has no
quote, no backslash and no control character: then quoting it verbatim is
valid JSON for the same text. -/
def strSafe (s : String) : Bool :=
  s.data.all (fun c => ¬ c = '"' && ¬ c = '\\' && 0x20 ≤ c.toNat)

/-- A value round-trips when decoding its encoded text restores it. -/
def roundTrippable (v : JVal) : Prop :=
  pyLoads (jsonize v) = some v

/-- A remainder that cannot extend a parsed numeral: empty, or headed by a
character that is neither a digit nor a fraction or exponent mark.  Every
delimiter the encoder emits after a number qualifies. -/
def numDelim : List Char → Bool
  | [] => true
  | c :: _ => !(isDigitChar c || c = '.' || c = 'e' || c = 'E')

/-! ### Basic facts about the table operations -/

/-- The default hook linkage for time.struct_time values: rendering the
unsupported value is rendering the tagged object to_json returns for it. -/
theorem render_hook_timeStruct (t : String) (lv : Nat) :
    render (JVal.timeStruct t) lv = render (to_json (JVal.timeStruct t)) lv := by
  simp [render, to_json, renderTagged, renderMTail]

/-- The default hook linkage for the other non-serializable values. -/
theorem render_hook_other (s : String) (lv : Nat) :
    render (JVal.other s) lv = render (to_json (JVal.other s)) lv := by
  simp [render, to_json, renderTagged, renderMTail]



theorem lookupVal_nil (k : String) : lookupVal [] k = none := rfl

theorem lookupVal_cons (a : String × String) (s : Store) (k : String) :
    lookupVal (a :: s) k = if a.1 = k then some a.2 else lookupVal s k := by
  by_cases h : a.1 = k <;> simp [lookupVal, List.find?_cons, h]

theorem updateVal_cons_hit (a : String × String) (s : Store) (k t : String)
    (h : a.1 = k) : updateVal (a :: s) k t = (a.1, t) :: updateVal s k t := by
  simp [updateVal, h]

theorem updateVal_cons_miss (a : String × String) (s : Store) (k t : String)
    (h : ¬ a.1 = k) : updateVal (a :: s) k t = a :: updateVal s k t := by
  simp [updateVal, h]

theorem lookupVal_update_self (s : Store) (k t t0 : String)
    (h : lookupVal s k = some t0) : lookupVal (updateVal s k t) k = some t := by
  induction s generalizing t0 with
  | nil => simp [lookupVal] at h
  | cons a s ih =>
      rw [lookupVal_cons] at h
      by_cases ha : a.1 = k
      · rw [updateVal_cons_hit a s k t ha, lookupVal_cons, if_pos ha]
      · rw [if_neg ha] at h
        rw [updateVal_cons_miss a s k t ha, lookupVal_cons, if_neg ha]
        exact ih t0 h

theorem lookupVal_update_other (s : Store) (k j t : String) (h : j ≠ k) :
    lookupVal (updateVal s k t) j = lookupVal s j := by
  induction s with
  | nil => rfl
  | cons a s ih =>
      by_cases ha : a.1 = k
      · have haj : ¬ a.1 = j := by rw [ha]; exact fun e => h e.symm
        rw [updateVal_cons_hit a s k t ha, lookupVal_cons, lookupVal_cons,
          if_neg haj, if_neg haj]
        exact ih
      · rw [updateVal_cons_miss a s k t ha, lookupVal_cons, lookupVal_cons]
        by_cases haj : a.1 = j
        · rw [if_pos haj, if_pos haj]
        · rw [if_neg haj, if_neg haj]; exact ih

theorem lookupVal_append_self (s : Store) (k t : String)
    (h : lookupVal s k = none) : lookupVal (s ++ [(k, t)]) k = some t := by
  induction s with
  | nil => rw [List.nil_append, lookupVal_cons]; simp
  | cons a s ih =>
      rw [lookupVal_cons] at h
      by_cases ha : a.1 = k
      · rw [if_pos ha] at h; exact absurd h (by simp)
      · rw [if_neg ha] at h
        rw [List.cons_append, lookupVal_cons, if_neg ha]
        exact ih h

theorem lookupVal_append_other (s : Store) (k j t : String) (h : j ≠ k) :
    lookupVal (s ++ [(k, t)]) j = lookupVal s j := by
  induction s with
  | nil =>
      rw [List.nil_append, lookupVal_cons, lookupVal_nil]
      exact if_neg (fun e => h e.symm)
  | cons a s ih =>
      rw [List.cons_append, lookupVal_cons, lookupVal_cons]
      by_cases haj : a.1 = j
      · rw [if_pos haj, if_pos haj]
      · rw [if_neg haj, if_neg haj]; exact ih

theorem delitem_cons_hit (a : String × String) (s : Store) (k : String)
    (h : a.1 = k) : delitem (a :: s) k = delitem s k := by
  simp [delitem, h]

theorem delitem_cons_miss (a : String × String) (s : Store) (k : String)
    (h : ¬ a.1 = k) : delitem (a :: s) k = a :: delitem s k := by
  simp [delitem, h]

theorem lookupVal_delitem_self (s : Store) (k : String) :
    lookupVal (delitem s k) k = none := by
  induction s with
  | nil => rfl
  | cons a s ih =>
      by_cases ha : a.1 = k
      · rw [delitem_cons_hit a s k ha]; exact ih
      · rw [delitem_cons_miss a s k ha, lookupVal_cons, if_neg ha]; exact ih

theorem lookupVal_delitem_other (s : Store) (k j : String) (h : j ≠ k) :
    lookupVal (delitem s k) j = lookupVal s j := by
  induction s with
  | nil => rfl
  | cons a s ih =>
      by_cases ha : a.1 = k
      · have haj : ¬ a.1 = j := by rw [ha]; exact fun e => h e.symm
        rw [delitem_cons_hit a s k ha, lookupVal_cons, if_neg haj]
        exact ih
      · rw [delitem_cons_miss a s k ha, lookupVal_cons, lookupVal_cons]
        by_cases haj : a.1 = j
        · rw [if_pos haj, if_pos haj]
        · rw [if_neg haj, if_neg haj]; exact ih

theorem getitem_eq_keyError_iff (s : Store) (k : String) :
    getitem s k = .error .keyError ↔ lookupVal s k = none := by
  unfold getitem
  cases hl : lookupVal s k with
  | none => simp
  | some t =>
      cases hp : pyLoads t with
      | none => simp [hp]
      | some w => simp [hp]

theorem getitem_congr (s s2 : Store) (j : String)
    (h : lookupVal s j = lookupVal s2 j) : getitem s j = getitem s2 j := by
  unfold getitem; rw [h]

theorem getitem_some (s : Store) (k t : String) (hl : lookupVal s k = some t) :
    getitem s k = match pyLoads t with
      | some v => Except.ok v
      | none => Except.error DbErr.valueError := by
  unfold getitem; rw [hl]

theorem lookupVal_of_getitem_ok (s : Store) (k : String) (v : JVal)
    (h : getitem s k = .ok v) : ∃ t, lookupVal s k = some t ∧ pyLoads t = some v := by
  cases hl : lookupVal s k with
  | none =>
      rw [(getitem_eq_keyError_iff s k).2 hl] at h
      exact absurd h (by simp)
  | some t =>
      rw [getitem_some s k t hl] at h
      refine ⟨t, rfl, ?_⟩
      cases hp : pyLoads t with
      | none => rw [hp] at h; exact absurd h (by simp)
      | some w => rw [hp] at h; simpa using h

theorem contains_iff (s : Store) (k : String) :
    contains s k = true ↔ lookupVal s k ≠ none := by
  unfold contains lookupVal
  rw [decide_eq_true_eq]
  constructor
  · intro h hfind
    rw [Option.map_eq_none', List.find?_eq_none] at hfind
    exact h (List.countP_eq_zero.2 hfind)
  · intro h hcount
    rw [List.countP_eq_zero] at hcount
    exact h (by rw [Option.map_eq_none', List.find?_eq_none]; exact hcount)

theorem setitem_of_ok (s : Store) (k : String) (v w : JVal)
    (hg : getitem s k = .ok w) :
    setitem s k v = if v = w then .ok s else .ok (updateVal s k (jsonize v)) := by
  unfold setitem; rw [hg]

theorem setitem_of_keyError (s : Store) (k : String) (v : JVal)
    (hg : getitem s k = .error .keyError) :
    setitem s k v = .ok (s ++ [(k, jsonize v)]) := by
  unfold setitem; rw [hg]

theorem setitem_of_valueError (s : Store) (k : String) (v : JVal)
    (hg : getitem s k = .error .valueError) :
    setitem s k v = .error .valueError := by
  unfold setitem; rw [hg]

/-- After a successful set of a round-trippable value, reading the key back
decodes to exactly that value (shared by the C2 and C10 theorems). -/
theorem getitem_setitem_ok (s : Store) (k : String) (v : JVal) (s2 : Store)
    (hv : roundTrippable v) (hset : setitem s k v = .ok s2) :
    getitem s2 k = .ok v := by
  have hv2 : pyLoads (jsonize v) = some v := hv
  cases hg : getitem s k with
  | ok w =>
      rw [setitem_of_ok s k v w hg] at hset
      by_cases hvw : v = w
      · rw [if_pos hvw] at hset
        injection hset with h2
        subst h2
        rw [hg, hvw]
      · rw [if_neg hvw] at hset
        injection hset with h2
        subst h2
        obtain ⟨t, hl, _⟩ := lookupVal_of_getitem_ok s k w hg
        rw [getitem_some _ k (jsonize v) (lookupVal_update_self s k (jsonize v) t hl), hv2]
  | error e =>
      cases e with
      | keyError =>
          rw [setitem_of_keyError s k v hg] at hset
          injection hset with h2
          subst h2
          have hl := (getitem_eq_keyError_iff s k).1 hg
          rw [getitem_some _ k (jsonize v) (lookupVal_append_self s k (jsonize v) hl), hv2]
      | valueError =>
          rw [setitem_of_valueError s k v hg] at hset
          exact absurd hset (by simp)

/-- C2: for every open store state, key k and round-trippable value v, a
successful set(k, v) followed by get(k) returns a value equal to v, whether
or not k already had a record (the no-op, update and insert paths of
setitem all restore v). -/
theorem set_then_get (s : Store) (k : String) (v : JVal) (s2 : Store)
    (hv : roundTrippable v) (hset : setitem s k v = .ok s2) :
    getitem s2 k = .ok v :=
  getitem_setitem_ok s k v s2 hv hset

theorem set_then_get_witness :
    roundTrippable (JVal.str "test")
    ∧ setitem [] "a" (JVal.str "test") = .ok [("a", jsonize (JVal.str "test"))]
    ∧ getitem [("a", jsonize (JVal.str "test"))] "a" = .ok (JVal.str "test") :=
  ⟨by unfold roundTrippable; decide, by decide,
    set_then_get [] "a" (JVal.str "test") [("a", jsonize (JVal.str "test"))]
      (by unfold roundTrippable; decide) (by decide)⟩

/-- C4: get(k) raises the missing-key error exactly when k has no record,
and get_or_default returns what get returns when the key has a record
(including propagating a decode error unchanged) and the default instead
of raising when it has none. -/
theorem get_missing_and_default (s : Store) (k : String) (d : JVal) :
    (getitem s k = .error .keyError ↔ lookupVal s k = none)
    ∧ (∀ v, getitem s k = .ok v → getDefault s k d = .ok v)
    ∧ (getitem s k = .error .valueError → getDefault s k d = .error .valueError)
    ∧ (lookupVal s k = none → getDefault s k d = .ok d) := by
  refine ⟨getitem_eq_keyError_iff s k, ?_, ?_, ?_⟩
  · intro v hv; unfold getDefault; rw [hv]
  · intro hv; unfold getDefault; rw [hv]
  · intro hl
    unfold getDefault
    rw [(getitem_eq_keyError_iff s k).2 hl]

theorem get_missing_and_default_witness :
    getitem ([] : Store) "b" = .error .keyError
    ∧ getDefault ([("a", jsonize (JVal.num 5))] : Store) "a" JVal.null = .ok (JVal.num 5)
    ∧ getDefault ([] : Store) "b" (JVal.num 7) = .ok (JVal.num 7) :=
  ⟨(get_missing_and_default [] "b" JVal.null).1.2 rfl,
    (get_missing_and_default [("a", jsonize (JVal.num 5))] "a" JVal.null).2.1
      (JVal.num 5) (by decide),
    (get_missing_and_default [] "b" (JVal.num 7)).2.2.2 rfl⟩

/-- C5: delete is silent on an absent key (a zero-row delete leaves the
table unchanged and raises nothing), and after delete(k) the membership
query contains(k) is false. -/
theorem delete_then_not_contains (s : Store) (k : String) :
    contains (delitem s k) k = false
    ∧ (lookupVal s k = none → delitem s k = s) := by
  constructor
  · rw [Bool.eq_false_iff]
    intro hc
    exact (contains_iff (delitem s k) k).1 hc (lookupVal_delitem_self s k)
  · intro hl
    have hf : s.find? (fun r => r.1 = k) = none := Option.map_eq_none'.1 hl
    have hall := List.find?_eq_none.1 hf
    unfold delitem
    rw [List.filter_eq_self]
    intro a ha
    simpa using hall a ha

theorem delete_then_not_contains_witness :
    contains (delitem [("a", "x"), ("b", "y")] "a") "a" = false
    ∧ delitem [("a", "x"), ("b", "y")] "zz" = [("a", "x"), ("b", "y")] :=
  ⟨(delete_then_not_contains [("a", "x"), ("b", "y")] "a").1,
    (delete_then_not_contains [("a", "x"), ("b", "y")] "zz").2 rfl⟩

/-- C6: when key k already stores a text that decodes to exactly the value
being assigned, setitem returns without issuing any write: the resulting
table, stored text included, is the very same state. -/
theorem set_equal_value_noop (s : Store) (k : String) (v : JVal)
    (hg : getitem s k = .ok v) : setitem s k v = .ok s := by
  rw [setitem_of_ok s k v v hg, if_pos rfl]

theorem set_equal_value_noop_witness :
    setitem [("a", jsonize (JVal.str "test")), ("b", "junk")] "a" (JVal.str "test")
      = .ok [("a", jsonize (JVal.str "test")), ("b", "junk")] :=
  set_equal_value_noop [("a", jsonize (JVal.str "test")), ("b", "junk")] "a"
    (JVal.str "test") (by decide)

/-- C9: single-key writes have the frame property: deleting k, or a
successful set of k, leaves the record of any other key j untouched, so a
later get(j) behaves exactly as before the write. -/
theorem write_frame_other_keys (s s2 : Store) (k j : String) (v : JVal)
    (hjk : j ≠ k) :
    getitem (delitem s k) j = getitem s j
    ∧ (setitem s k v = .ok s2 → getitem s2 j = getitem s j) := by
  constructor
  · exact getitem_congr _ s j (lookupVal_delitem_other s k j hjk)
  · intro hset
    cases hg : getitem s k with
    | ok w =>
        rw [setitem_of_ok s k v w hg] at hset
        by_cases hvw : v = w
        · rw [if_pos hvw] at hset
          injection hset with h2
          subst h2
          rfl
        · rw [if_neg hvw] at hset
          injection hset with h2
          subst h2
          exact getitem_congr _ s j (lookupVal_update_other s k j (jsonize v) hjk)
    | error e =>
        cases e with
        | keyError =>
            rw [setitem_of_keyError s k v hg] at hset
            injection hset with h2
            subst h2
            exact getitem_congr _ s j (lookupVal_append_other s k j (jsonize v) hjk)
        | valueError =>
            rw [setitem_of_valueError s k v hg] at hset
            exact absurd hset (by simp)

theorem write_frame_other_keys_witness :
    getitem (delitem [("a", jsonize (JVal.num 1)), ("b", jsonize (JVal.num 2))] "b") "a"
      = getitem [("a", jsonize (JVal.num 1)), ("b", jsonize (JVal.num 2))] "a"
    ∧ getitem [("a", jsonize (JVal.num 1)), ("b", jsonize (JVal.num 3))] "a"
      = getitem [("a", jsonize (JVal.num 1)), ("b", jsonize (JVal.num 2))] "a" :=
  ⟨(write_frame_other_keys [("a", jsonize (JVal.num 1)), ("b", jsonize (JVal.num 2))]
      [] "b" "a" JVal.null (by decide)).1,
    (write_frame_other_keys [("a", jsonize (JVal.num 1)), ("b", jsonize (JVal.num 2))]
      [("a", jsonize (JVal.num 1)), ("b", jsonize (JVal.num 3))] "b" "a" (JVal.num 3)
      (by decide)).2 (by decide)⟩

/-- C10: a stored null is indistinguishable from an absent key through the
defaulting accessor: after a successful set(k, None) the store reports
contains(k) as true, yet get(k) with the default omitted (None) returns
None, exactly what it returns for a key with no record at all. -/
theorem stored_null_like_missing (s s2 : Store) (k : String)
    (hset : setitem s k JVal.null = .ok s2) :
    contains s2 k = true
    ∧ getDefault s2 k JVal.null = .ok JVal.null
    ∧ (∀ j, lookupVal s j = none → getDefault s j JVal.null = .ok JVal.null) := by
  have hrt : roundTrippable JVal.null := by unfold roundTrippable; decide
  have hget := getitem_setitem_ok s k JVal.null s2 hrt hset
  refine ⟨?_, ?_, ?_⟩
  · obtain ⟨t, hl, _⟩ := lookupVal_of_getitem_ok s2 k JVal.null hget
    exact (contains_iff s2 k).2 (by rw [hl]; simp)
  · unfold getDefault; rw [hget]
  · intro j hl
    unfold getDefault
    rw [(getitem_eq_keyError_iff s j).2 hl]

theorem stored_null_like_missing_witness :
    contains [("k", jsonize JVal.null)] "k" = true
    ∧ getDefault [("k", jsonize JVal.null)] "k" JVal.null = .ok JVal.null
    ∧ getDefault ([("k", jsonize JVal.null)] : Store) "absent" JVal.null = .ok JVal.null :=
  have h := stored_null_like_missing [] [("k", jsonize JVal.null)] "k" (by decide)
  ⟨h.1, h.2.1, h.2.2 "absent" rfl⟩

/-! ### C7: mutual consistency of keys, values and items -/

/-- The three listing queries agree row by row: the decoded items determine
the key list, the decoded value list and the row count (shared by the C7
theorem and its witness). -/
theorem items_determines_all (s : Store) (its : List (String × JVal))
    (h : dbItems s = some its) :
    dbKeys s = its.map Prod.fst
    ∧ dbValues s = some (its.map Prod.snd)
    ∧ dbLen s = its.length := by
  induction s generalizing its with
  | nil =>
      unfold dbItems at h
      rw [List.mapM_nil, Option.pure_def] at h
      injection h with h0
      subst h0
      exact ⟨rfl, rfl, rfl⟩
  | cons r s ih =>
      unfold dbItems at h
      rw [List.mapM_cons] at h
      cases hp : pyLoads r.2 with
      | none => rw [hp] at h; simp at h
      | some v =>
          rw [hp] at h
          cases hrest : s.mapM (fun r => (pyLoads r.2).map (fun v => (r.1, v))) with
          | none => rw [hrest] at h; simp at h
          | some its2 =>
              rw [hrest] at h
              simp only [Option.map_some', Option.pure_def, Option.bind_eq_bind,
                Option.some_bind] at h
              injection h with h0
              subst h0
              obtain ⟨hk, hv, hl⟩ := ih its2 hrest
              refine ⟨?_, ?_, ?_⟩
              · simpa [dbKeys] using hk
              · unfold dbValues
                rw [List.mapM_cons, hp]
                unfold dbValues at hv
                rw [hv]
                simp
              · simpa [dbLen] using hl

/-- C7: keys(), values() and items() are mutually consistent: the three
lists have one entry per row in the same physical order, item i is the
pair of key i and value i, and len() equals the length of keys(). -/
theorem keys_values_items_consistent (s : Store) (its : List (String × JVal))
    (h : dbItems s = some its) :
    dbKeys s = its.map Prod.fst
    ∧ dbValues s = some (its.map Prod.snd)
    ∧ (dbKeys s).length = its.length
    ∧ dbLen s = (dbKeys s).length
    ∧ ∀ (i : Nat) (h1 : i < its.length) (hk2 : i < (dbKeys s).length)
        (hv2 : i < (its.map Prod.snd).length),
        its.get ⟨i, h1⟩
          = ((dbKeys s).get ⟨i, hk2⟩, (its.map Prod.snd).get ⟨i, hv2⟩) := by
  obtain ⟨hk, hv, hl⟩ := items_determines_all s its h
  refine ⟨hk, hv, by rw [hk]; simp, by rw [hk]; simpa [dbLen] using hl, ?_⟩
  intro i h1 hk2 hv2
  have e2 : (dbKeys s).get ⟨i, hk2⟩ = (its.get ⟨i, h1⟩).1 := by
    rw [List.get_of_eq hk ⟨i, hk2⟩]
    simp
  have e3 : (its.map Prod.snd).get ⟨i, hv2⟩ = (its.get ⟨i, h1⟩).2 := by
    simp
  rw [e2, e3]

theorem keys_values_items_consistent_witness :
    dbKeys [("a", jsonize (JVal.num 1)), ("b", jsonize JVal.null)]
      = ([("a", JVal.num 1), ("b", JVal.null)] : List (String × JVal)).map Prod.fst
    ∧ dbValues [("a", jsonize (JVal.num 1)), ("b", jsonize JVal.null)]
      = some (([("a", JVal.num 1), ("b", JVal.null)] : List (String × JVal)).map Prod.snd)
    ∧ dbLen [("a", jsonize (JVal.num 1)), ("b", jsonize JVal.null)]
      = (dbKeys [("a", jsonize (JVal.num 1)), ("b", jsonize JVal.null)]).length := by
  have hd : dbItems [("a", jsonize (JVal.num 1)), ("b", jsonize JVal.null)]
      = some [("a", JVal.num 1), ("b", JVal.null)] := by decide
  have h := keys_values_items_consistent
    [("a", jsonize (JVal.num 1)), ("b", jsonize JVal.null)]
    [("a", JVal.num 1), ("b", JVal.null)] hd
  exact ⟨h.1, h.2.1, h.2.2.2.1⟩

/-! ### C8: key uniqueness is an invariant of all reachable states -/

theorem dbKeys_updateVal (s : Store) (k t : String) :
    dbKeys (updateVal s k t) = dbKeys s := by
  unfold dbKeys updateVal
  rw [List.map_map]
  refine List.map_congr_left ?_
  intro a _
  by_cases h : a.1 = k <;> simp [h]

theorem not_mem_dbKeys_of_lookup_none (s : Store) (k : String)
    (h : lookupVal s k = none) : k ∉ dbKeys s := by
  have hf : s.find? (fun r => r.1 = k) = none := Option.map_eq_none'.1 h
  have hall := List.find?_eq_none.1 hf
  intro hmem
  unfold dbKeys at hmem
  obtain ⟨r, hr, hrk⟩ := List.mem_map.1 hmem
  have hne : ¬ r.1 = k := by simpa using hall r hr
  exact hne hrk

/-- Every operation preserves duplicate-freedom of the key column: set
inserts only after its existence check saw no row and otherwise updates in
place, delete and clear only remove rows. -/
theorem applyOp_nodup (s s2 : Store) (op : Op)
    (hnd : (dbKeys s).Nodup) (h : applyOp s op = .ok s2) : (dbKeys s2).Nodup := by
  cases op with
  | set k v =>
      have hset : setitem s k v = .ok s2 := h
      cases hg : getitem s k with
      | ok w =>
          rw [setitem_of_ok s k v w hg] at hset
          by_cases hvw : v = w
          · rw [if_pos hvw] at hset
            injection hset with h2
            subst h2
            exact hnd
          · rw [if_neg hvw] at hset
            injection hset with h2
            subst h2
            rw [dbKeys_updateVal]
            exact hnd
      | error e =>
          cases e with
          | keyError =>
              rw [setitem_of_keyError s k v hg] at hset
              injection hset with h2
              subst h2
              have hk := not_mem_dbKeys_of_lookup_none s k
                ((getitem_eq_keyError_iff s k).1 hg)
              have hsplit : dbKeys (s ++ [(k, jsonize v)]) = dbKeys s ++ [k] := by
                unfold dbKeys; simp
              rw [hsplit]
              simp only [List.nodup_append]
              exact ⟨hnd, List.nodup_singleton k,
                by simpa [List.disjoint_singleton] using hk⟩
          | valueError =>
              rw [setitem_of_valueError s k v hg] at hset
              exact absurd hset (by simp)
  | del k =>
      have hdel : Except.ok (delitem s k) = Except.ok s2 := h
      injection hdel with h2
      subst h2
      have hsub : List.Sublist (dbKeys (delitem s k)) (dbKeys s) := by
        unfold dbKeys delitem
        exact List.Sublist.map _ (List.filter_sublist s)
      exact hnd.sublist hsub
  | clear =>
      have hcl : Except.ok (dbClear s) = Except.ok s2 := h
      injection hcl with h2
      subst h2
      exact List.nodup_nil

/-- Running operations from a duplicate-free state keeps the key column
duplicate-free (the inductive core of the C8 theorem). -/
theorem runOps_nodup (ops : List Op) (s s2 : Store)
    (hnd : (dbKeys s).Nodup) (h : runOps s ops = .ok s2) : (dbKeys s2).Nodup := by
  induction ops generalizing s with
  | nil =>
      have h0 : Except.ok s = Except.ok s2 := h
      injection h0 with h2
      subst h2
      exact hnd
  | cons op ops ih =>
      have h0 : (match applyOp s op with
          | .ok s3 => runOps s3 ops
          | .error e => .error e) = .ok s2 := h
      cases ha : applyOp s op with
      | ok s3 =>
          rw [ha] at h0
          exact ih s3 (applyOp_nodup s s3 op hnd ha) h0
      | error e =>
          rw [ha] at h0
          exact absurd h0 (by simp)

/-- C8: starting from an empty store, any finite sequence of set, delete
and clear operations leaves the key column without duplicates, because set
inserts a new row only when its preceding existence check found none and
otherwise updates in place. -/
theorem keys_unique_invariant (ops : List Op) (s : Store)
    (h : runOps [] ops = .ok s) : (dbKeys s).Nodup :=
  runOps_nodup ops [] s List.nodup_nil h

theorem keys_unique_invariant_witness :
    runOps [] [Op.set "a" (JVal.num 1), Op.set "b" (JVal.num 2),
        Op.set "a" (JVal.num 3), Op.del "b"]
      = .ok [("a", jsonize (JVal.num 3))]
    ∧ (dbKeys [("a", jsonize (JVal.num 3))]).Nodup :=
  ⟨by decide,
    keys_unique_invariant
      [Op.set "a" (JVal.num 1), Op.set "b" (JVal.num 2),
        Op.set "a" (JVal.num 3), Op.del "b"]
      [("a", jsonize (JVal.num 3))] (by decide)⟩

/-! ### Decimal numerals: the decoder inverts the encoder's integer printer -/

theorem digitChar_spec :
    ∀ d : Fin 10, (digitChar d.1).toNat = 48 + d.1
      ∧ isDigitChar (digitChar d.1) = true
      ∧ ((digitChar d.1 = '0') ↔ d.1 = 0)
      ∧ ¬ digitChar d.1 = '-' := by decide

theorem digitChar_toNat (d : Nat) (h : d < 10) : (digitChar d).toNat = 48 + d :=
  (digitChar_spec ⟨d, h⟩).1

theorem digitChar_digit (d : Nat) (h : d < 10) : isDigitChar (digitChar d) = true :=
  (digitChar_spec ⟨d, h⟩).2.1

theorem digitChar_eq_zero (d : Nat) (h : d < 10) : (digitChar d = '0') ↔ d = 0 :=
  (digitChar_spec ⟨d, h⟩).2.2.1

theorem natChars_congr : ∀ f g n : Nat, n ≤ f → n ≤ g → natChars f n = natChars g n := by
  intro f
  induction f with
  | zero =>
      intro g n hf _
      obtain rfl : n = 0 := Nat.le_zero.1 hf
      cases g with
      | zero => rfl
      | succ g => simp [natChars]
  | succ f ih =>
      intro g n hf hg
      cases g with
      | zero =>
          obtain rfl : n = 0 := Nat.le_zero.1 hg
          simp [natChars]
      | succ g =>
          by_cases h10 : n < 10
          · simp [natChars, h10]
          · simp only [natChars, if_neg h10]
            rw [ih g (n / 10) (by omega) (by omega)]

theorem natDigits_unfold (n : Nat) :
    natDigits n = if n < 10 then [digitChar n]
      else natDigits (n / 10) ++ [digitChar (n % 10)] := by
  unfold natDigits
  cases n with
  | zero => simp [natChars]
  | succ m =>
      by_cases h10 : m + 1 < 10
      · simp [natChars, h10]
      · simp only [natChars, if_neg h10]
        rw [natChars_congr m ((m + 1) / 10) ((m + 1) / 10) (by omega) le_rfl]

theorem natDigits_digits (n : Nat) : ∀ c ∈ natDigits n, isDigitChar c = true := by
  induction n using Nat.strong_induction_on with
  | _ n ih =>
      rw [natDigits_unfold]
      by_cases h10 : n < 10
      · rw [if_pos h10]
        intro c hc
        rw [List.mem_singleton] at hc
        subst hc
        exact digitChar_digit n h10
      · rw [if_neg h10]
        intro c hc
        rcases List.mem_append.1 hc with h | h
        · exact ih (n / 10) (by omega) c h
        · rw [List.mem_singleton] at h
          subst h
          exact digitChar_digit (n % 10) (by omega)

theorem natDigits_ne_nil (n : Nat) : natDigits n ≠ [] := by
  rw [natDigits_unfold]
  by_cases h10 : n < 10 <;> simp [h10]

theorem natDigits_head (n : Nat) :
    ∃ c t, natDigits n = c :: t ∧ isDigitChar c = true ∧ (n ≠ 0 → ¬ c = '0') := by
  induction n using Nat.strong_induction_on with
  | _ n ih =>
      by_cases h10 : n < 10
      · refine ⟨digitChar n, [], by rw [natDigits_unfold, if_pos h10],
          digitChar_digit n h10, ?_⟩
        intro hn h0
        exact hn ((digitChar_eq_zero n h10).1 h0)
      · obtain ⟨c, t, he, hd, h0⟩ := ih (n / 10) (by omega)
        refine ⟨c, t ++ [digitChar (n % 10)], ?_, hd, fun _ => h0 (by omega)⟩
        rw [natDigits_unfold, if_neg h10, he]
        rfl

theorem digitsVal_natDigits (n : Nat) : digitsVal (natDigits n) = n := by
  induction n using Nat.strong_induction_on with
  | _ n ih =>
      rw [natDigits_unfold]
      by_cases h10 : n < 10
      · rw [if_pos h10]
        unfold digitsVal
        rw [List.foldl_cons, List.foldl_nil, digitChar_toNat n h10]
        omega
      · rw [if_neg h10]
        unfold digitsVal
        rw [List.foldl_append, List.foldl_cons, List.foldl_nil]
        have hih := ih (n / 10) (by omega)
        unfold digitsVal at hih
        rw [hih, digitChar_toNat (n % 10) (by omega)]
        omega

theorem takeDigits_cons_neg (c : Char) (cs : List Char) (h : isDigitChar c = false) :
    takeDigits (c :: cs) = ([], c :: cs) := by
  simp [takeDigits, h]

theorem takeDigits_stop (cs : List Char) (h : numDelim cs = true) :
    takeDigits cs = ([], cs) := by
  cases cs with
  | nil => rfl
  | cons c t =>
      refine takeDigits_cons_neg c t ?_
      unfold numDelim at h
      simp only [Bool.not_eq_eq_eq_not, Bool.not_true, Bool.or_eq_false_iff] at h
      exact h.1.1.1

theorem takeDigits_append (ds rs : List Char) (hstop : takeDigits rs = ([], rs))
    (hall : ∀ c ∈ ds, isDigitChar c = true) :
    takeDigits (ds ++ rs) = (ds, rs) := by
  induction ds with
  | nil => simpa using hstop
  | cons d tl ih =>
      have hd : isDigitChar d = true := hall d (List.mem_cons_self d tl)
      have htl := ih (fun x hx => hall x (List.mem_cons_of_mem d hx))
      simp [takeDigits, hd, htl]

theorem parseIntAux_natDigits (n : Nat) (rest : List Char)
    (hrest : takeDigits rest = ([], rest)) :
    parseIntAux (natDigits n ++ rest) = some (n, rest) := by
  by_cases hn : n = 0
  · subst hn
    have h0 : natDigits 0 = ['0'] := by decide
    rw [h0]
    simp [parseIntAux]
  · obtain ⟨c, t, he, hd, h0⟩ := natDigits_head n
    have hc0 : ¬ c = '0' := h0 hn
    have htd : ∀ x ∈ t, isDigitChar x = true := by
      intro x hx
      exact natDigits_digits n x (by rw [he]; exact List.mem_cons_of_mem c hx)
    rw [he, List.cons_append]
    have hred : parseIntAux (c :: (t ++ rest)) =
        if c = '0' then some (0, t ++ rest)
        else if isDigitChar c = true then
          match takeDigits (t ++ rest) with
          | (ds, r) => some (digitsVal (c :: ds), r)
        else none := rfl
    rw [hred, if_neg hc0, if_pos hd, takeDigits_append t rest hrest htd]
    have hv : digitsVal (c :: t) = n := by rw [← he]; exact digitsVal_natDigits n
    show some (digitsVal (c :: t), rest) = some (n, rest)
    rw [hv]

theorem digit_ne_minus (c : Char) (h : isDigitChar c = true) : ¬ c = '-' := by
  intro e; subst e; exact absurd h (by decide)

theorem noFloatNext_of_numDelim (cs : List Char) (h : numDelim cs = true) :
    noFloatNext cs = true := by
  cases cs with
  | nil => rfl
  | cons c t =>
      unfold numDelim at h
      unfold noFloatNext
      simp only [Bool.not_eq_eq_eq_not, Bool.not_true, Bool.or_eq_false_iff] at h
      simp [h.1.1.2, h.1.2, h.2]

theorem parseNum_cons_not_minus (c : Char) (cs : List Char) (h : ¬ c = '-') :
    parseNum (c :: cs) = match parseIntAux (c :: cs) with
      | some (n, r2) => if noFloatNext r2 then some ((n : Int), r2) else none
      | none => none := by
  rw [parseNum.eq_def]
  split
  · rename_i heq
    injection heq with h1 _
    exact absurd h1 h
  · rfl

theorem parseNum_intChars (i : Int) (rest : List Char) (h : numDelim rest = true) :
    parseNum (intChars i ++ rest) = some (i, rest) := by
  have hia := parseIntAux_natDigits i.natAbs rest (takeDigits_stop rest h)
  have hnf := noFloatNext_of_numDelim rest h
  by_cases hi : i < 0
  · rw [intChars, if_pos hi, List.cons_append]
    rw [show parseNum ('-' :: (natDigits i.natAbs ++ rest))
        = match parseIntAux (natDigits i.natAbs ++ rest) with
          | some (n, r2) => if noFloatNext r2 then some (-(n : Int), r2) else none
          | none => none from rfl]
    rw [hia]
    show (if noFloatNext rest = true then some (-((i.natAbs : Nat) : Int), rest) else none)
      = some (i, rest)
    have he : -((i.natAbs : Nat) : Int) = i := by omega
    rw [if_pos hnf, he]
  · rw [intChars, if_neg hi]
    obtain ⟨c, t, he, hd, _⟩ := natDigits_head i.natAbs
    rw [he, List.cons_append,
      parseNum_cons_not_minus c (t ++ rest) (digit_ne_minus c hd), ← List.cons_append, ← he]
    rw [hia]
    show (if noFloatNext rest = true then some (((i.natAbs : Nat) : Int), rest) else none)
      = some (i, rest)
    have hei : ((i.natAbs : Nat) : Int) = i := by omega
    rw [if_pos hnf, hei]

/-! ### String escapes: the decoder inverts the encoder's escaping -/

theorem hexDigitChar_spec : ∀ d : Fin 16, hexVal (hexDigitChar d.1) = some d.1 := by decide

theorem hexVal_hexDigitChar (d : Nat) (h : d < 16) : hexVal (hexDigitChar d) = some d :=
  hexDigitChar_spec ⟨d, h⟩

theorem hex4_hex4Chars (n : Nat) (h : n < 0x10000) :
    hex4 (hexDigitChar (n / 4096 % 16)) (hexDigitChar (n / 256 % 16))
      (hexDigitChar (n / 16 % 16)) (hexDigitChar (n % 16)) = some n := by
  unfold hex4
  rw [hexVal_hexDigitChar (n / 4096 % 16) (by omega),
    hexVal_hexDigitChar (n / 256 % 16) (by omega),
    hexVal_hexDigitChar (n / 16 % 16) (by omega),
    hexVal_hexDigitChar (n % 16) (by omega)]
  show some ((((n / 4096 % 16) * 16 + n / 256 % 16) * 16 + n / 16 % 16) * 16 + n % 16)
    = some n
  congr 1
  omega

theorem char_valid_nat (c : Char) :
    c.toNat < 0xd800 ∨ (0xdfff < c.toNat ∧ c.toNat < 0x110000) := c.valid

theorem parseStrAux_cons (acc : List Char) (c : Char) (rest : List Char) :
    parseStrAux acc (c :: rest) =
      if c = '"' then some (acc.reverse, rest)
      else if c = '\\' then parseStrEsc acc rest
      else if c.toNat < 0x20 then none
      else parseStrAux (c :: acc) rest := by
  rw [parseStrAux.eq_def]

theorem parseStrEsc_u (acc : List Char) (a b d e : Char) (r2 : List Char) :
    parseStrEsc acc ('u' :: a :: b :: d :: e :: r2) =
      match hex4 a b d e with
      | some n =>
          if n < 0xd800 ∨ 0xdfff < n then parseStrAux (Char.ofNat n :: acc) r2
          else if n ≤ 0xdbff then parseStrLow acc n r2
          else none
      | none => none := by
  rw [parseStrEsc.eq_def]
  rfl

theorem parseStrLow_u (acc : List Char) (n : Nat) (a b d e : Char) (r3 : List Char) :
    parseStrLow acc n ('\\' :: 'u' :: a :: b :: d :: e :: r3) =
      match hex4 a b d e with
      | some m =>
          if 0xdc00 ≤ m ∧ m ≤ 0xdfff then
            parseStrAux (Char.ofNat (0x10000 + (n - 0xd800) * 0x400 + (m - 0xdc00)) :: acc) r3
          else none
      | none => none := by
  rw [parseStrLow.eq_def]
  rfl

theorem uEscape_append (n : Nat) (rest : List Char) :
    uEscape n ++ rest = '\\' :: 'u' :: hexDigitChar (n / 4096 % 16)
      :: hexDigitChar (n / 256 % 16) :: hexDigitChar (n / 16 % 16)
      :: hexDigitChar (n % 16) :: rest := rfl

theorem parseStrAux_bmpEsc (acc rest : List Char) (n : Nat)
    (hlt : n < 0x10000) (hs : n < 0xd800 ∨ 0xdfff < n) :
    parseStrAux acc (uEscape n ++ rest) = parseStrAux (Char.ofNat n :: acc) rest := by
  rw [uEscape_append, parseStrAux_cons, if_neg (by decide : ¬ '\\' = '"'), if_pos rfl,
    parseStrEsc_u, hex4_hex4Chars n hlt]
  show (if n < 0xd800 ∨ 0xdfff < n then parseStrAux (Char.ofNat n :: acc) rest
      else if n ≤ 0xdbff then parseStrLow acc n rest else none)
    = parseStrAux (Char.ofNat n :: acc) rest
  rw [if_pos hs]

theorem parseStrAux_escChar (c : Char) (acc rest : List Char) :
    parseStrAux acc (escChar c ++ rest) = parseStrAux (c :: acc) rest := by
  by_cases h1 : c = '"'
  · subst h1; rfl
  by_cases h2 : c = '\\'
  · subst h2; rfl
  by_cases h3 : c = '\n'
  · subst h3; rfl
  by_cases h4 : c = '\r'
  · subst h4; rfl
  by_cases h5 : c = '\t'
  · subst h5; rfl
  by_cases h6 : c.toNat = 8
  · have hc : c = Char.ofNat 8 := by rw [← h6, Char.ofNat_toNat]
    subst hc; rfl
  by_cases h7 : c.toNat = 12
  · have hc : c = Char.ofNat 12 := by rw [← h7, Char.ofNat_toNat]
    subst hc; rfl
  by_cases h8 : c.toNat < 0x20
  · have hesc : escChar c = uEscape c.toNat := by
      unfold escChar
      rw [if_neg h1, if_neg h2, if_neg h3, if_neg h4, if_neg h5, if_neg h6, if_neg h7,
        if_pos h8]
    rw [hesc, parseStrAux_bmpEsc acc rest c.toNat (by omega) (by omega), Char.ofNat_toNat]
  by_cases h9 : c.toNat ≤ 0x7e
  · have hesc : escChar c = [c] := by
      unfold escChar
      rw [if_neg h1, if_neg h2, if_neg h3, if_neg h4, if_neg h5, if_neg h6, if_neg h7,
        if_neg h8, if_pos h9]
    rw [hesc, List.cons_append, List.nil_append, parseStrAux_cons, if_neg h1, if_neg h2,
      if_neg h8]
  by_cases h10 : c.toNat < 0x10000
  · have hesc : escChar c = uEscape c.toNat := by
      unfold escChar
      rw [if_neg h1, if_neg h2, if_neg h3, if_neg h4, if_neg h5, if_neg h6, if_neg h7,
        if_neg h8, if_neg h9, if_pos h10]
    have hs : c.toNat < 0xd800 ∨ 0xdfff < c.toNat := by
      rcases char_valid_nat c with h | h
      · exact Or.inl h
      · exact Or.inr h.1
    rw [hesc, parseStrAux_bmpEsc acc rest c.toNat h10 hs, Char.ofNat_toNat]
  · have hesc : escChar c = uEscape (0xd800 + (c.toNat - 0x10000) / 0x400) ++
        uEscape (0xdc00 + (c.toNat - 0x10000) % 0x400) := by
      unfold escChar
      rw [if_neg h1, if_neg h2, if_neg h3, if_neg h4, if_neg h5, if_neg h6, if_neg h7,
        if_neg h8, if_neg h9, if_neg h10]
    have hle : c.toNat < 0x110000 := by
      rcases char_valid_nat c with h | h
      · omega
      · exact h.2
    rw [hesc, List.append_assoc, uEscape_append, parseStrAux_cons,
      if_neg (by decide : ¬ '\\' = '"'), if_pos rfl, parseStrEsc_u,
      hex4_hex4Chars (0xd800 + (c.toNat - 0x10000) / 0x400) (by omega)]
    show (if 0xd800 + (c.toNat - 0x10000) / 0x400 < 0xd800
          ∨ 0xdfff < 0xd800 + (c.toNat - 0x10000) / 0x400
        then parseStrAux (Char.ofNat (0xd800 + (c.toNat - 0x10000) / 0x400) :: acc)
          (uEscape (0xdc00 + (c.toNat - 0x10000) % 0x400) ++ rest)
        else if 0xd800 + (c.toNat - 0x10000) / 0x400 ≤ 0xdbff
        then parseStrLow acc (0xd800 + (c.toNat - 0x10000) / 0x400)
          (uEscape (0xdc00 + (c.toNat - 0x10000) % 0x400) ++ rest)
        else none)
      = parseStrAux (c :: acc) rest
    rw [if_neg (by omega : ¬ (0xd800 + (c.toNat - 0x10000) / 0x400 < 0xd800
          ∨ 0xdfff < 0xd800 + (c.toNat - 0x10000) / 0x400)),
      if_pos (by omega : 0xd800 + (c.toNat - 0x10000) / 0x400 ≤ 0xdbff),
      uEscape_append, parseStrLow_u,
      hex4_hex4Chars (0xdc00 + (c.toNat - 0x10000) % 0x400) (by omega)]
    show (if 0xdc00 ≤ 0xdc00 + (c.toNat - 0x10000) % 0x400
          ∧ 0xdc00 + (c.toNat - 0x10000) % 0x400 ≤ 0xdfff
        then parseStrAux
          (Char.ofNat (0x10000 + (0xd800 + (c.toNat - 0x10000) / 0x400 - 0xd800) * 0x400
            + (0xdc00 + (c.toNat - 0x10000) % 0x400 - 0xdc00)) :: acc) rest
        else none)
      = parseStrAux (c :: acc) rest
    rw [if_pos (⟨by omega, by omega⟩ : 0xdc00 ≤ 0xdc00 + (c.toNat - 0x10000) % 0x400
        ∧ 0xdc00 + (c.toNat - 0x10000) % 0x400 ≤ 0xdfff)]
    have harith : 0x10000 + (0xd800 + (c.toNat - 0x10000) / 0x400 - 0xd800) * 0x400
        + (0xdc00 + (c.toNat - 0x10000) % 0x400 - 0xdc00) = c.toNat := by
      omega
    rw [harith, Char.ofNat_toNat]

theorem parseStrAux_flatMap (cs : List Char) : ∀ (acc rest : List Char),
    parseStrAux acc (cs.flatMap escChar ++ ('"' :: rest))
      = some (acc.reverse ++ cs, rest) := by
  induction cs with
  | nil =>
      intro acc rest
      rw [List.flatMap_nil, List.nil_append, parseStrAux_cons, if_pos rfl]
      simp
  | cons c cs ih =>
      intro acc rest
      rw [List.flatMap_cons, List.append_assoc, parseStrAux_escChar, ih]
      simp

theorem parseStrAux_verbatim (cs : List Char)
    (h : ∀ c ∈ cs, ¬ c = '"' ∧ ¬ c = '\\' ∧ 0x20 ≤ c.toNat) : ∀ (acc rest : List Char),
    parseStrAux acc (cs ++ ('"' :: rest)) = some (acc.reverse ++ cs, rest) := by
  induction cs with
  | nil =>
      intro acc rest
      rw [List.nil_append, parseStrAux_cons, if_pos rfl]
      simp
  | cons c cs ih =>
      intro acc rest
      obtain ⟨hq, hb, hc⟩ := h c (by simp)
      rw [List.cons_append, parseStrAux_cons, if_neg hq, if_neg hb,
        if_neg (by omega : ¬ c.toNat < 0x20),
        ih (fun x hx => h x (by simp [hx]))]
      simp

/-! ### Whitespace and leading-character facts about rendered output -/

theorem skipWs_cons_ws (c : Char) (l : List Char) (h : isWsChar c = true) :
    skipWs (c :: l) = skipWs l := by
  simp [skipWs, h]

theorem skipWs_cons_not (c : Char) (l : List Char) (h : isWsChar c = false) :
    skipWs (c :: l) = c :: l := by
  simp [skipWs, h]

theorem skipWs_nl (l : List Char) : skipWs ('\n' :: l) = skipWs l :=
  skipWs_cons_ws '\n' l (by decide)

theorem skipWs_spaces (n : Nat) (l : List Char) : skipWs (spaces n ++ l) = skipWs l := by
  induction n with
  | zero => rfl
  | succ n ih =>
      rw [spaces, List.replicate_succ, List.cons_append,
        skipWs_cons_ws ' ' _ (by decide)]
      exact ih

theorem digit_head_facts (c : Char) (h : isDigitChar c = true) :
    isWsChar c = false ∧ ¬ c = ']' ∧ ¬ c = rbrace := by
  have h48 : 48 ≤ c.toNat ∧ c.toNat ≤ 57 := by simpa [isDigitChar] using h
  refine ⟨?_, ?_, ?_⟩
  · unfold isWsChar
    simp only [Bool.or_eq_false_iff, decide_eq_false_iff_not]
    refine ⟨⟨⟨?_, ?_⟩, ?_⟩, ?_⟩ <;>
      (intro e; subst e; exact absurd h48 (by decide))
  · intro e; subst e; exact absurd h48 (by decide)
  · intro e; subst e; exact absurd h48 (by decide)

theorem head_char_ok (c : Char)
    (hc : (isWsChar c || decide (c = ']') || decide (c = rbrace)) = false) :
    isWsChar c = false ∧ ¬ c = ']' ∧ ¬ c = rbrace := by
  simp only [Bool.or_eq_false_iff, decide_eq_false_iff_not] at hc
  exact ⟨hc.1.1, ⟨hc.1.2, hc.2⟩⟩

theorem render_head (v : JVal) (lv : Nat) :
    ∃ c t, render v lv = c :: t ∧ isWsChar c = false ∧ ¬ c = ']' ∧ ¬ c = rbrace := by
  cases v with
  | num i =>
      by_cases hi : i < 0
      · refine ⟨'-', natDigits i.natAbs, ?_, head_char_ok '-' rfl⟩
        show intChars i = _
        rw [intChars, if_pos hi]
      · obtain ⟨c, t, he, hd, _⟩ := natDigits_head i.natAbs
        obtain ⟨hw, hb1, hb2⟩ := digit_head_facts c hd
        refine ⟨c, t, ?_, hw, hb1, hb2⟩
        show intChars i = c :: t
        rw [intChars, if_neg hi, he]
  | null => exact ⟨'n', _, rfl, head_char_ok 'n' rfl⟩
  | bool b => cases b <;> exact ⟨_, _, rfl, head_char_ok _ rfl⟩
  | str s => exact ⟨'"', _, rfl, head_char_ok '"' rfl⟩
  | arr xs => cases xs <;> exact ⟨'[', _, rfl, head_char_ok '[' rfl⟩
  | obj ms =>
      rcases ms with _ | ⟨⟨k, w⟩, ms⟩ <;> exact ⟨lbrace, _, rfl, head_char_ok lbrace rfl⟩
  | timeStruct t => exact ⟨lbrace, _, rfl, head_char_ok lbrace rfl⟩
  | other s => exact ⟨lbrace, _, rfl, head_char_ok lbrace rfl⟩

theorem skipWs_render (v : JVal) (lv : Nat) (x : List Char) :
    skipWs (render v lv ++ x) = render v lv ++ x := by
  obtain ⟨c, t, he, hw, _, _⟩ := render_head v lv
  rw [he, List.cons_append, skipWs_cons_not c _ hw]

/-! ### Canonical values are fixed by the key sorting pass -/

theorem charListLt_trans : ∀ a b c : List Char,
    charListLt a b = true → charListLt b c = true → charListLt a c = true
  | [], [], _, h1, _ => by simp [charListLt] at h1
  | [], _ :: _, [], _, h2 => by simp [charListLt] at h2
  | [], _ :: _, _ :: _, _, _ => rfl
  | _ :: _, [], _, h1, _ => by simp [charListLt] at h1
  | _ :: _, _ :: _, [], _, h2 => by simp [charListLt] at h2
  | a :: as, b :: bs, c :: cs, h1, h2 => by
      simp only [charListLt] at h1 h2 ⊢
      by_cases hab : a.toNat < b.toNat <;> by_cases hbc : b.toNat < c.toNat
      · rw [if_pos (by omega : a.toNat < c.toNat)]
      · rw [if_neg hbc] at h2
        by_cases hcb : c.toNat < b.toNat
        · rw [if_pos hcb] at h2
          exact absurd h2 (by simp)
        · rw [if_neg hcb] at h2
          rw [if_pos (by omega : a.toNat < c.toNat)]
      · rw [if_neg hab] at h1
        by_cases hba : b.toNat < a.toNat
        · rw [if_pos hba] at h1
          exact absurd h1 (by simp)
        · rw [if_neg hba] at h1
          rw [if_pos (by omega : a.toNat < c.toNat)]
      · rw [if_neg hab] at h1
        by_cases hba : b.toNat < a.toNat
        · rw [if_pos hba] at h1
          exact absurd h1 (by simp)
        · rw [if_neg hba] at h1
          rw [if_neg hbc] at h2
          by_cases hcb : c.toNat < b.toNat
          · rw [if_pos hcb] at h2
            exact absurd h2 (by simp)
          · rw [if_neg hcb] at h2
            rw [if_neg (by omega : ¬ a.toNat < c.toNat),
              if_neg (by omega : ¬ c.toNat < a.toNat)]
            exact charListLt_trans as bs cs h1 h2

theorem strLt_trans (a b c : String) (h1 : strLt a b = true) (h2 : strLt b c = true) :
    strLt a c = true :=
  charListLt_trans a.data b.data c.data h1 h2

theorem strLe_of_strLt (a b : String) (h : strLt a b = true) : strLe a b = true := by
  simp [strLe, h]

theorem sortedKeys_cons (a : String × JVal) (ms : List (String × JVal))
    (h : sortedKeys (a :: ms) = true) :
    sortedKeys ms = true ∧ ∀ b ∈ ms, strLt a.1 b.1 = true := by
  induction ms generalizing a with
  | nil => exact ⟨rfl, by simp⟩
  | cons b ms ih =>
      have h2 : strLt a.1 b.1 = true ∧ sortedKeys (b :: ms) = true := by
        simpa [sortedKeys, Bool.and_eq_true] using h
      obtain ⟨hms, hall⟩ := ih b h2.2
      refine ⟨h2.2, ?_⟩
      intro x hx
      rcases List.mem_cons.1 hx with rfl | hx2
      · exact h2.1
      · exact strLt_trans a.1 b.1 x.1 h2.1 (hall x hx2)

theorem sorted_le_of_sortedKeys (ms : List (String × JVal))
    (h : sortedKeys ms = true) :
    List.Sorted (fun a b : String × JVal => strLe a.1 b.1 = true) ms := by
  induction ms with
  | nil => exact List.sorted_nil
  | cons a ms ih =>
      obtain ⟨hms, hall⟩ := sortedKeys_cons a ms h
      rw [List.sorted_cons]
      exact ⟨fun b hb => strLe_of_strLt a.1 b.1 (hall b hb), ih hms⟩

mutual

theorem sortAll_canon : ∀ v, canon v = true → sortAll v = v
  | .null, _ => rfl
  | .bool _, _ => rfl
  | .num _, _ => rfl
  | .str _, _ => rfl
  | .arr xs, h => by
      rw [show sortAll (JVal.arr xs) = JVal.arr (sortAllArr xs) from rfl,
        sortAllArr_canon xs h]
  | .obj ms, h => by
      have hc : sortedKeys ms = true ∧ canonMems ms = true := by
        simpa [canon, Bool.and_eq_true] using h
      rw [show sortAll (JVal.obj ms)
          = JVal.obj (List.insertionSort (fun a b : String × JVal => strLe a.1 b.1 = true)
            (sortAllMems ms)) from rfl,
        sortAllMems_canon ms hc.2,
        List.Sorted.insertionSort_eq (sorted_le_of_sortedKeys ms hc.1)]
  | .timeStruct _, h => by simp [canon] at h
  | .other _, h => by simp [canon] at h

theorem sortAllArr_canon : ∀ xs, canonArr xs = true → sortAllArr xs = xs
  | [], _ => rfl
  | x :: xs, h => by
      have h2 : canon x = true ∧ canonArr xs = true := by
        simpa [canonArr, Bool.and_eq_true] using h
      rw [show sortAllArr (x :: xs) = sortAll x :: sortAllArr xs from rfl,
        sortAll_canon x h2.1, sortAllArr_canon xs h2.2]

theorem sortAllMems_canon : ∀ ms, canonMems ms = true → sortAllMems ms = ms
  | [], _ => rfl
  | (k, v) :: ms, h => by
      have h2 : canon v = true ∧ canonMems ms = true := by
        simpa [canonMems, Bool.and_eq_true] using h
      rw [show sortAllMems ((k, v) :: ms) = (k, sortAll v) :: sortAllMems ms from rfl,
        sortAll_canon v h2.1, sortAllMems_canon ms h2.2]

end

/-! ### One-step reductions of the fuel-driven parser -/

theorem pv_null (fuel : Nat) (r : List Char) :
    parseVal (fuel + 1) ('n' :: 'u' :: 'l' :: 'l' :: r) = some (.null, r) := rfl

theorem pv_true (fuel : Nat) (r : List Char) :
    parseVal (fuel + 1) ('t' :: 'r' :: 'u' :: 'e' :: r) = some (.bool true, r) := rfl

theorem pv_false (fuel : Nat) (r : List Char) :
    parseVal (fuel + 1) ('f' :: 'a' :: 'l' :: 's' :: 'e' :: r) = some (.bool false, r) := rfl

theorem pv_quote (fuel : Nat) (r : List Char) :
    parseVal (fuel + 1) ('"' :: r) =
      match parseStrAux [] r with
      | some (chars, r2) => some (.str (String.mk chars), r2)
      | none => none := rfl

theorem pv_arr_nil (fuel : Nat) (r r2 : List Char) (hskip : skipWs r = ']' :: r2) :
    parseVal (fuel + 1) ('[' :: r) = some (.arr [], r2) := by
  simp only [parseVal, skipWs_cons_not '[' _ (by decide), hskip]

theorem pv_arr_cons (fuel : Nat) (r : List Char) (c0 : Char) (t0 : List Char)
    (hskip : skipWs r = c0 :: t0) (hc0 : ¬ c0 = ']') :
    parseVal (fuel + 1) ('[' :: r) =
      match parseElems fuel (c0 :: t0) with
      | some (es, r2) => some (.arr es, r2)
      | none => none := by
  simp only [parseVal, skipWs_cons_not '[' _ (by decide), hskip]
  split
  · rename_i heq
    injection heq with h1 _
    exact absurd h1 hc0
  · rfl

theorem pv_obj_nil (fuel : Nat) (r r2 : List Char) (hskip : skipWs r = rbrace :: r2) :
    parseVal (fuel + 1) (lbrace :: r) = some (.obj [], r2) := by
  simp only [parseVal, skipWs_cons_not lbrace _ (by decide), hskip]

theorem pv_obj_cons (fuel : Nat) (r : List Char) (d0 : Char) (t0 : List Char)
    (hskip : skipWs r = d0 :: t0) (hd0 : ¬ d0 = rbrace) :
    parseVal (fuel + 1) (lbrace :: r) =
      match parseMembers fuel (d0 :: t0) with
      | some (ms, r3) => some (.obj ms, r3)
      | none => none := by
  simp only [parseVal, skipWs_cons_not lbrace _ (by decide), hskip]
  split
  · rename_i heq
    injection heq with h1 _
    exact absurd h1 hd0
  · rfl

theorem pv_num (fuel : Nat) (c : Char) (r : List Char)
    (hw : isWsChar c = false) (hn : ¬ c = 'n') (ht : ¬ c = 't') (hf : ¬ c = 'f')
    (hq : ¬ c = '"') (hb : ¬ c = '[') (hlb : ¬ c = lbrace)
    (hnum : (decide (c = '-') || isDigitChar c) = true) :
    parseVal (fuel + 1) (c :: r) =
      match parseNum (c :: r) with
      | some (n, r2) => some (.num n, r2)
      | none => none := by
  simp only [parseVal, skipWs_cons_not c r hw]
  split
  · rename_i heq
    injection heq with h1 _
    exact absurd h1 hn
  · rename_i heq
    injection heq with h1 _
    exact absurd h1 ht
  · rename_i heq
    injection heq with h1 _
    exact absurd h1 hf
  · rename_i heq
    injection heq with h1 _
    exact absurd h1 hq
  · rename_i heq
    injection heq with h1 _
    exact absurd h1 hb
  · rename_i heq
    injection heq with h1 _
    exact absurd h1 hlb
  · rename_i c2 r2 heq
    injection heq with h1 h2
    subst h1
    subst h2
    rw [if_pos hnum]
  · rename_i heq
    exact absurd heq (by simp)

theorem pe_comma (fuel : Nat) (cs : List Char) (v : JVal) (r r2 : List Char)
    (hv : parseVal fuel cs = some (v, r)) (hr : skipWs r = ',' :: r2) :
    parseElems (fuel + 1) cs =
      match parseElems fuel (skipWs r2) with
      | some (vs, r3) => some (v :: vs, r3)
      | none => none := by
  simp only [parseElems, hv, hr]

theorem pe_bracket (fuel : Nat) (cs : List Char) (v : JVal) (r r2 : List Char)
    (hv : parseVal fuel cs = some (v, r)) (hr : skipWs r = ']' :: r2) :
    parseElems (fuel + 1) cs = some ([v], r2) := by
  simp only [parseElems, hv, hr]

theorem pm_last (fuel : Nat) (cs r : List Char) (key : List Char) (r1 r2 : List Char)
    (v : JVal) (r3 r4 : List Char)
    (hcs : skipWs cs = '"' :: r)
    (hkey : parseStrAux [] r = some (key, r1))
    (hr1 : skipWs r1 = ':' :: r2)
    (hv : parseVal fuel (skipWs r2) = some (v, r3))
    (hr3 : skipWs r3 = rbrace :: r4) :
    parseMembers (fuel + 1) cs = some ([(String.mk key, v)], r4) := by
  simp only [parseMembers, hcs, hkey, hr1, hv, hr3]

theorem pm_cons (fuel : Nat) (cs r : List Char) (key : List Char) (r1 r2 : List Char)
    (v : JVal) (r3 r4 : List Char)
    (hcs : skipWs cs = '"' :: r)
    (hkey : parseStrAux [] r = some (key, r1))
    (hr1 : skipWs r1 = ':' :: r2)
    (hv : parseVal fuel (skipWs r2) = some (v, r3))
    (hr3 : skipWs r3 = ',' :: r4) :
    parseMembers (fuel + 1) cs =
      match parseMembers fuel (skipWs r4) with
      | some (ms, r5) => some ((String.mk key, v) :: ms, r5)
      | none => none := by
  simp only [parseMembers, hcs, hkey, hr1, hv, hr3]

theorem digit_not_heads (c : Char) (h : isDigitChar c = true) :
    ¬ c = 'n' ∧ ¬ c = 't' ∧ ¬ c = 'f' ∧ ¬ c = '"' ∧ ¬ c = '[' ∧ ¬ c = lbrace := by
  have h48 : 48 ≤ c.toNat ∧ c.toNat ≤ 57 := by simpa [isDigitChar] using h
  refine ⟨?_, ?_, ?_, ?_, ?_, ?_⟩ <;>
    (intro e; subst e; exact absurd h48 (by decide))

theorem skipWs_renderStr (k : String) (x : List Char) :
    skipWs (renderStr k ++ x) = renderStr k ++ x := by
  rw [renderStr, List.cons_append, skipWs_cons_not '"' _ (by decide)]

/-! ### The encoder-decoder round trip on supported values -/

mutual

theorem rt_val : ∀ (v : JVal) (lv fuel : Nat) (rest : List Char),
    canon v = true → (render v lv).length < fuel → numDelim rest = true →
    parseVal fuel (render v lv ++ rest) = some (v, rest)
  | .null, lv, fuel, rest, _, hf, _ => by
      cases fuel with
      | zero => exact absurd hf (by omega)
      | succ f =>
          rw [show render JVal.null lv ++ rest = 'n' :: 'u' :: 'l' :: 'l' :: rest from rfl]
          exact pv_null f rest
  | .bool true, lv, fuel, rest, _, hf, _ => by
      cases fuel with
      | zero => exact absurd hf (by omega)
      | succ f =>
          rw [show render (JVal.bool true) lv ++ rest
            = 't' :: 'r' :: 'u' :: 'e' :: rest from rfl]
          exact pv_true f rest
  | .bool false, lv, fuel, rest, _, hf, _ => by
      cases fuel with
      | zero => exact absurd hf (by omega)
      | succ f =>
          rw [show render (JVal.bool false) lv ++ rest
            = 'f' :: 'a' :: 'l' :: 's' :: 'e' :: rest from rfl]
          exact pv_false f rest
  | .num n, lv, fuel, rest, _, hf, hrest => by
      cases fuel with
      | zero => exact absurd hf (by omega)
      | succ f =>
          have hren : render (JVal.num n) lv = intChars n := rfl
          by_cases hneg : n < 0
          · have he : intChars n = '-' :: natDigits n.natAbs := by
              rw [intChars, if_pos hneg]
            have harg : render (JVal.num n) lv ++ rest
                = '-' :: (natDigits n.natAbs ++ rest) := by
              rw [hren, he, List.cons_append]
            rw [harg, pv_num f '-' _ (by decide) (by decide) (by decide) (by decide)
              (by decide) (by decide) (by decide) (by decide)]
            rw [show ('-' : Char) :: (natDigits n.natAbs ++ rest)
                = intChars n ++ rest from by rw [he, List.cons_append],
              parseNum_intChars n rest hrest]
          · obtain ⟨c, t, he2, hd, _⟩ := natDigits_head n.natAbs
            have he : intChars n = c :: t := by rw [intChars, if_neg hneg, he2]
            obtain ⟨hw, _, _⟩ := digit_head_facts c hd
            obtain ⟨hn2, ht2, hf2, hq2, hb2, hlb2⟩ := digit_not_heads c hd
            have harg : render (JVal.num n) lv ++ rest = c :: (t ++ rest) := by
              rw [hren, he, List.cons_append]
            rw [harg, pv_num f c _ hw hn2 ht2 hf2 hq2 hb2 hlb2 (by simp [hd])]
            rw [show c :: (t ++ rest) = intChars n ++ rest from by rw [he, List.cons_append],
              parseNum_intChars n rest hrest]
  | .str s, lv, fuel, rest, _, hf, _ => by
      cases fuel with
      | zero => exact absurd hf (by omega)
      | succ f =>
          have harg : render (JVal.str s) lv ++ rest
              = '"' :: (s.data.flatMap escChar ++ ('"' :: rest)) := by
            show ('"' :: (s.data.flatMap escChar ++ ['"'])) ++ rest = _
            simp [List.append_assoc]
          rw [harg, pv_quote f _, parseStrAux_flatMap s.data [] rest]
          rfl
  | .arr [], lv, fuel, rest, _, hf, _ => by
      cases fuel with
      | zero => exact absurd hf (by omega)
      | succ f =>
          rw [show render (JVal.arr []) lv ++ rest = '[' :: (']' :: rest) from rfl]
          exact pv_arr_nil f _ rest (skipWs_cons_not ']' rest (by decide))
  | .arr (x :: xs), lv, fuel, rest, hcanon, hf, _ => by
      cases fuel with
      | zero => exact absurd hf (by omega)
      | succ f =>
          have hcx : canon x = true ∧ canonArr xs = true := by
            simpa [canon, canonArr, Bool.and_eq_true] using hcanon
          have harg : render (JVal.arr (x :: xs)) lv ++ rest
              = '[' :: ('\n' :: (spaces (3 * (lv + 1)) ++ (render x (lv + 1) ++
                  (renderTail xs (lv + 1) ++
                    ('\n' :: (spaces (3 * lv) ++ (']' :: rest))))))) := by
            show ('[' :: '\n' :: (spaces (3 * (lv + 1)) ++
              (render x (lv + 1) ++ renderTail xs (lv + 1) ++
                ('\n' :: (spaces (3 * lv) ++ [']']))))) ++ rest = _
            simp [List.append_assoc]
          obtain ⟨c0, t0, hex, hw0, hb0, _⟩ := render_head x (lv + 1)
          have hskip2 : skipWs ('\n' :: (spaces (3 * (lv + 1)) ++ (render x (lv + 1) ++
              (renderTail xs (lv + 1) ++ ('\n' :: (spaces (3 * lv) ++ (']' :: rest)))))))
              = c0 :: (t0 ++ (renderTail xs (lv + 1) ++
                  ('\n' :: (spaces (3 * lv) ++ (']' :: rest))))) := by
            rw [skipWs_nl, skipWs_spaces, hex, List.cons_append,
              skipWs_cons_not c0 _ hw0]
          rw [harg, pv_arr_cons f _ c0 _ hskip2 hb0, ← List.cons_append, ← hex]
          have hb : (render x (lv + 1)).length + (renderTail xs (lv + 1)).length + 1 < f := by
            rw [show render (JVal.arr (x :: xs)) lv
                = '[' :: '\n' :: (spaces (3 * (lv + 1)) ++
                  (render x (lv + 1) ++ renderTail xs (lv + 1) ++
                    ('\n' :: (spaces (3 * lv) ++ [']'])))) from rfl] at hf
            simp only [List.length_cons, List.length_append, spaces,
              List.length_replicate, List.length_singleton] at hf
            omega
          rw [rt_elems x xs (lv + 1) f (3 * lv) rest hcx.1 hcx.2 hb]
  | .obj [], lv, fuel, rest, _, hf, _ => by
      cases fuel with
      | zero => exact absurd hf (by omega)
      | succ f =>
          rw [show render (JVal.obj []) lv ++ rest = lbrace :: (rbrace :: rest) from rfl]
          exact pv_obj_nil f _ rest (skipWs_cons_not rbrace rest (by decide))
  | .obj ((k, v) :: ms), lv, fuel, rest, hcanon, hf, _ => by
      cases fuel with
      | zero => exact absurd hf (by omega)
      | succ f =>
          have hck : sortedKeys ((k, v) :: ms) = true ∧ canon v = true
              ∧ canonMems ms = true := by
            have h2 : sortedKeys ((k, v) :: ms) = true
                ∧ canonMems ((k, v) :: ms) = true := by
              simpa [canon, Bool.and_eq_true] using hcanon
            have h3 : canon v = true ∧ canonMems ms = true := by
              simpa [canonMems, Bool.and_eq_true] using h2.2
            exact ⟨h2.1, h3.1, h3.2⟩
          have harg : render (JVal.obj ((k, v) :: ms)) lv ++ rest
              = lbrace :: ('\n' :: (spaces (3 * (lv + 1)) ++ (renderStr k ++
                  (':' :: ' ' :: (render v (lv + 1) ++ (renderMTail ms (lv + 1) ++
                    ('\n' :: (spaces (3 * lv) ++ (rbrace :: rest))))))))) := by
            show (lbrace :: '\n' :: (spaces (3 * (lv + 1)) ++
              (renderStr k ++ ':' :: ' ' :: (render v (lv + 1) ++ renderMTail ms (lv + 1) ++
                ('\n' :: (spaces (3 * lv) ++ [rbrace])))))) ++ rest = _
            simp [List.append_assoc]
          have hskip2 : skipWs ('\n' :: (spaces (3 * (lv + 1)) ++ (renderStr k ++
              (':' :: ' ' :: (render v (lv + 1) ++ (renderMTail ms (lv + 1) ++
                ('\n' :: (spaces (3 * lv) ++ (rbrace :: rest)))))))))
              = '"' :: ((k.data.flatMap escChar ++ ['"']) ++
                  (':' :: ' ' :: (render v (lv + 1) ++ (renderMTail ms (lv + 1) ++
                    ('\n' :: (spaces (3 * lv) ++ (rbrace :: rest))))))) := by
            rw [skipWs_nl, skipWs_spaces, renderStr, List.cons_append,
              skipWs_cons_not '"' _ (by decide)]
          rw [harg, pv_obj_cons f _ '"' _ hskip2 (by decide), ← List.cons_append,
            show ('"' :: (k.data.flatMap escChar ++ ['"'])) = renderStr k from rfl]
          have hb : (renderStr k).length + (render v (lv + 1)).length
              + (renderMTail ms (lv + 1)).length + 1 < f := by
            rw [show render (JVal.obj ((k, v) :: ms)) lv
                = lbrace :: '\n' :: (spaces (3 * (lv + 1)) ++
                  (renderStr k ++ ':' :: ' ' :: (render v (lv + 1) ++ renderMTail ms (lv + 1) ++
                    ('\n' :: (spaces (3 * lv) ++ [rbrace]))))) from rfl] at hf
            simp only [List.length_cons, List.length_append, spaces,
              List.length_replicate, List.length_singleton] at hf
            omega
          rw [rt_members k v ms (lv + 1) f (3 * lv) rest hck.2.1 hck.2.2 hb]
  | .timeStruct t, lv, fuel, rest, hcanon, _, _ => by simp [canon] at hcanon
  | .other s, lv, fuel, rest, hcanon, _, _ => by simp [canon] at hcanon
termination_by v _ _ _ _ _ _ => sizeOf v

theorem rt_elems : ∀ (x : JVal) (xs : List JVal) (lv fuel m : Nat) (rest : List Char),
    canon x = true → canonArr xs = true →
    (render x lv).length + (renderTail xs lv).length + 1 < fuel →
    parseElems fuel
        (render x lv ++ (renderTail xs lv ++ ('\n' :: (spaces m ++ (']' :: rest)))))
      = some (x :: xs, rest)
  | x, [], lv, fuel, m, rest, hcx, _, hfuel => by
      cases fuel with
      | zero => exact absurd hfuel (by omega)
      | succ f =>
          rw [show renderTail ([] : List JVal) lv = [] from rfl, List.nil_append]
          have hfx : (render x lv).length < f := by
            rw [show renderTail ([] : List JVal) lv = [] from rfl] at hfuel
            simp only [List.length_nil] at hfuel
            omega
          have hval := rt_val x lv f ('\n' :: (spaces m ++ (']' :: rest))) hcx hfx rfl
          have hr : skipWs ('\n' :: (spaces m ++ (']' :: rest))) = ']' :: rest := by
            rw [skipWs_nl, skipWs_spaces, skipWs_cons_not ']' rest (by decide)]
          exact pe_bracket f _ x _ rest hval hr
  | x, y :: ys, lv, fuel, m, rest, hcx, hcxs, hfuel => by
      cases fuel with
      | zero => exact absurd hfuel (by omega)
      | succ f =>
          have hcy : canon y = true ∧ canonArr ys = true := by
            simpa [canonArr, Bool.and_eq_true] using hcxs
          have hsh : renderTail (y :: ys) lv ++ ('\n' :: (spaces m ++ (']' :: rest)))
              = ',' :: ('\n' :: (spaces (3 * lv) ++ (render y lv ++ (renderTail ys lv ++
                  ('\n' :: (spaces m ++ (']' :: rest))))))) := by
            rw [show renderTail (y :: ys) lv
              = ',' :: '\n' :: (spaces (3 * lv) ++ (render y lv ++ renderTail ys lv)) from rfl]
            simp [List.append_assoc]
          rw [hsh]
          have hb : (render x lv).length < f
              ∧ (render y lv).length + (renderTail ys lv).length + 1 < f := by
            rw [show renderTail (y :: ys) lv
              = ',' :: '\n' :: (spaces (3 * lv) ++ (render y lv ++ renderTail ys lv)) from rfl]
              at hfuel
            simp only [List.length_cons, List.length_append, spaces,
              List.length_replicate] at hfuel
            omega
          have hval := rt_val x lv f
            (',' :: ('\n' :: (spaces (3 * lv) ++ (render y lv ++ (renderTail ys lv ++
              ('\n' :: (spaces m ++ (']' :: rest)))))))) hcx hb.1 rfl
          have hr : skipWs (',' :: ('\n' :: (spaces (3 * lv) ++ (render y lv ++
              (renderTail ys lv ++ ('\n' :: (spaces m ++ (']' :: rest))))))))
              = ',' :: ('\n' :: (spaces (3 * lv) ++ (render y lv ++ (renderTail ys lv ++
                  ('\n' :: (spaces m ++ (']' :: rest))))))) :=
            skipWs_cons_not ',' _ (by decide)
          rw [pe_comma f _ x _ _ hval hr]
          have hskip2 : skipWs ('\n' :: (spaces (3 * lv) ++ (render y lv ++
              (renderTail ys lv ++ ('\n' :: (spaces m ++ (']' :: rest)))))))
              = render y lv ++ (renderTail ys lv ++ ('\n' :: (spaces m ++ (']' :: rest)))) := by
            rw [skipWs_nl, skipWs_spaces, skipWs_render]
          rw [hskip2, rt_elems y ys lv f m rest hcy.1 hcy.2 hb.2]
termination_by x xs _ _ _ _ _ _ _ => sizeOf (x :: xs)

theorem rt_members : ∀ (k : String) (v : JVal) (ms : List (String × JVal))
    (lv fuel m : Nat) (rest : List Char),
    canon v = true → canonMems ms = true →
    (renderStr k).length + (render v lv).length + (renderMTail ms lv).length + 1 < fuel →
    parseMembers fuel (renderStr k ++ (':' :: ' ' :: (render v lv ++ (renderMTail ms lv ++
        ('\n' :: (spaces m ++ (rbrace :: rest)))))))
      = some ((k, v) :: ms, rest)
  | k, v, [], lv, fuel, m, rest, hcv, _, hfuel => by
      cases fuel with
      | zero => exact absurd hfuel (by omega)
      | succ f =>
          rw [show renderMTail ([] : List (String × JVal)) lv = [] from rfl, List.nil_append]
          have hfv : (render v lv).length < f := by
            rw [show renderMTail ([] : List (String × JVal)) lv = [] from rfl] at hfuel
            simp only [List.length_nil] at hfuel
            omega
          have hshape : renderStr k ++ (':' :: ' ' :: (render v lv ++
              ('\n' :: (spaces m ++ (rbrace :: rest)))))
              = '"' :: (k.data.flatMap escChar ++ ('"' :: (':' :: ' ' :: (render v lv ++
                  ('\n' :: (spaces m ++ (rbrace :: rest))))))) := by
            rw [renderStr]
            simp [List.append_assoc]
          rw [hshape]
          have hcs : skipWs ('"' :: (k.data.flatMap escChar ++ ('"' :: (':' :: ' ' ::
              (render v lv ++ ('\n' :: (spaces m ++ (rbrace :: rest))))))))
              = '"' :: (k.data.flatMap escChar ++ ('"' :: (':' :: ' ' :: (render v lv ++
                  ('\n' :: (spaces m ++ (rbrace :: rest))))))) :=
            skipWs_cons_not '"' _ (by decide)
          have hkey := parseStrAux_flatMap k.data []
            (':' :: ' ' :: (render v lv ++ ('\n' :: (spaces m ++ (rbrace :: rest)))))
          rw [List.reverse_nil, List.nil_append] at hkey
          have hr1 : skipWs (':' :: ' ' :: (render v lv ++
              ('\n' :: (spaces m ++ (rbrace :: rest)))))
              = ':' :: (' ' :: (render v lv ++ ('\n' :: (spaces m ++ (rbrace :: rest))))) :=
            skipWs_cons_not ':' _ (by decide)
          have hsp : skipWs (' ' :: (render v lv ++ ('\n' :: (spaces m ++ (rbrace :: rest)))))
              = render v lv ++ ('\n' :: (spaces m ++ (rbrace :: rest))) := by
            rw [skipWs_cons_ws ' ' _ (by decide), skipWs_render]
          have hval : parseVal f (skipWs (' ' :: (render v lv ++
              ('\n' :: (spaces m ++ (rbrace :: rest))))))
              = some (v, '\n' :: (spaces m ++ (rbrace :: rest))) := by
            rw [hsp]
            exact rt_val v lv f ('\n' :: (spaces m ++ (rbrace :: rest))) hcv hfv rfl
          have hr3 : skipWs ('\n' :: (spaces m ++ (rbrace :: rest))) = rbrace :: rest := by
            rw [skipWs_nl, skipWs_spaces, skipWs_cons_not rbrace rest (by decide)]
          rw [pm_last f _ _ k.data _ _ v _ rest hcs hkey hr1 hval hr3]
  | k, v, (k2, v2) :: ms2, lv, fuel, m, rest, hcv, hcms, hfuel => by
      cases fuel with
      | zero => exact absurd hfuel (by omega)
      | succ f =>
          have hcm : canon v2 = true ∧ canonMems ms2 = true := by
            simpa [canonMems, Bool.and_eq_true] using hcms
          have hmt : renderMTail ((k2, v2) :: ms2) lv
              = ',' :: '\n' :: (spaces (3 * lv) ++
                  (renderStr k2 ++ ':' :: ' ' :: (render v2 lv ++ renderMTail ms2 lv))) := rfl
          have hsh : renderMTail ((k2, v2) :: ms2) lv ++
              ('\n' :: (spaces m ++ (rbrace :: rest)))
              = ',' :: ('\n' :: (spaces (3 * lv) ++ (renderStr k2 ++ (':' :: ' ' ::
                  (render v2 lv ++ (renderMTail ms2 lv ++
                    ('\n' :: (spaces m ++ (rbrace :: rest))))))))) := by
            rw [hmt]
            simp [List.append_assoc]
          rw [hsh]
          have hb : (render v lv).length < f
              ∧ (renderStr k2).length + (render v2 lv).length
                + (renderMTail ms2 lv).length + 1 < f := by
            rw [hmt] at hfuel
            simp only [List.length_cons, List.length_append, spaces,
              List.length_replicate] at hfuel
            omega
          have hshape : renderStr k ++ (':' :: ' ' :: (render v lv ++
              (',' :: ('\n' :: (spaces (3 * lv) ++ (renderStr k2 ++ (':' :: ' ' ::
                (render v2 lv ++ (renderMTail ms2 lv ++
                  ('\n' :: (spaces m ++ (rbrace :: rest))))))))))))
              = '"' :: (k.data.flatMap escChar ++ ('"' :: (':' :: ' ' :: (render v lv ++
                  (',' :: ('\n' :: (spaces (3 * lv) ++ (renderStr k2 ++ (':' :: ' ' ::
                    (render v2 lv ++ (renderMTail ms2 lv ++
                      ('\n' :: (spaces m ++ (rbrace :: rest)))))))))))))) := by
            rw [renderStr]
            simp [List.append_assoc]
          rw [hshape]
          have hcs := skipWs_cons_not '"' (k.data.flatMap escChar ++ ('"' :: (':' :: ' ' ::
            (render v lv ++ (',' :: ('\n' :: (spaces (3 * lv) ++ (renderStr k2 ++
              (':' :: ' ' :: (render v2 lv ++ (renderMTail ms2 lv ++
                ('\n' :: (spaces m ++ (rbrace :: rest)))))))))))))) (by decide)
          have hkey := parseStrAux_flatMap k.data []
            (':' :: ' ' :: (render v lv ++ (',' :: ('\n' :: (spaces (3 * lv) ++
              (renderStr k2 ++ (':' :: ' ' :: (render v2 lv ++ (renderMTail ms2 lv ++
                ('\n' :: (spaces m ++ (rbrace :: rest))))))))))))
          rw [List.reverse_nil, List.nil_append] at hkey
          have hr1 := skipWs_cons_not ':' (' ' :: (render v lv ++ (',' :: ('\n' ::
            (spaces (3 * lv) ++ (renderStr k2 ++ (':' :: ' ' :: (render v2 lv ++
              (renderMTail ms2 lv ++ ('\n' :: (spaces m ++ (rbrace :: rest))))))))))))
            (by decide)
          have hval : parseVal f (skipWs (' ' :: (render v lv ++ (',' :: ('\n' ::
              (spaces (3 * lv) ++ (renderStr k2 ++ (':' :: ' ' :: (render v2 lv ++
                (renderMTail ms2 lv ++ ('\n' :: (spaces m ++ (rbrace :: rest)))))))))))))
              = some (v, ',' :: ('\n' :: (spaces (3 * lv) ++ (renderStr k2 ++
                  (':' :: ' ' :: (render v2 lv ++ (renderMTail ms2 lv ++
                    ('\n' :: (spaces m ++ (rbrace :: rest)))))))))) := by
            rw [skipWs_cons_ws ' ' _ (by decide), skipWs_render]
            exact rt_val v lv f _ hcv hb.1 rfl
          have hr3 := skipWs_cons_not ',' ('\n' :: (spaces (3 * lv) ++ (renderStr k2 ++
            (':' :: ' ' :: (render v2 lv ++ (renderMTail ms2 lv ++
              ('\n' :: (spaces m ++ (rbrace :: rest))))))))) (by decide)
          rw [pm_cons f _ _ k.data _ _ v _ _ hcs hkey hr1 hval hr3]
          have hskip4 : skipWs ('\n' :: (spaces (3 * lv) ++ (renderStr k2 ++ (':' :: ' ' ::
              (render v2 lv ++ (renderMTail ms2 lv ++
                ('\n' :: (spaces m ++ (rbrace :: rest)))))))))
              = renderStr k2 ++ (':' :: ' ' :: (render v2 lv ++ (renderMTail ms2 lv ++
                  ('\n' :: (spaces m ++ (rbrace :: rest)))))) := by
            rw [skipWs_nl, skipWs_spaces, skipWs_renderStr]
          rw [hskip4, rt_members k2 v2 ms2 lv f m rest hcm.1 hcm.2 hb.2]
termination_by _ v ms _ _ _ _ _ _ _ => sizeOf v + sizeOf ms

end

/-- Decoding the full general-encoder output of a supported value restores
the value (the fuel supplied by pyLoads, one more than the text length,
always suffices). -/
theorem pyLoads_render (v : JVal) (h : canon v = true) :
    pyLoads (String.mk (render v 0)) = some v := by
  have hval := rt_val v 0 ((render v 0).length + 1) [] h (by omega) rfl
  rw [List.append_nil] at hval
  show (match parseVal ((render v 0).length + 1) (render v 0) with
    | some (w, r) => if skipWs r = [] then some w else none
    | none => none) = some v
  rw [hval]
  rfl

/-- On every value that is not a plain string, jsonize is the general
encoder: json.dumps after the recursive key sort. -/
theorem jsonize_eq_general (v : JVal) (hns : ∀ s, ¬ v = JVal.str s) :
    jsonize v = String.mk (render (sortAll v) 0) := by
  cases v with
  | str s => exact absurd rfl (hns s)
  | null => rfl
  | bool b => rfl
  | num n => rfl
  | arr xs => rfl
  | obj ms => rfl
  | timeStruct t => rfl
  | other s => rfl

/-- Decoding the stored text of a fallback-tagged non-serializable value
yields exactly the tagged object the to_json hook produced. -/
theorem pyLoads_jsonize_other (o : String) :
    pyLoads (jsonize (JVal.other o)) = some (to_json (JVal.other o)) := by
  rw [jsonize_eq_general (JVal.other o) (fun s h => JVal.noConfusion h),
    show sortAll (JVal.other o) = JVal.other o from rfl, render_hook_other]
  exact pyLoads_render (to_json (JVal.other o)) rfl

/-- The time.struct_time analogue of pyLoads_jsonize_other. -/
theorem pyLoads_jsonize_timeStruct (t : String) :
    pyLoads (jsonize (JVal.timeStruct t)) = some (to_json (JVal.timeStruct t)) := by
  rw [jsonize_eq_general (JVal.timeStruct t) (fun s h => JVal.noConfusion h),
    show sortAll (JVal.timeStruct t) = JVal.timeStruct t from rfl, render_hook_timeStruct]
  exact pyLoads_render (to_json (JVal.timeStruct t)) rfl

/-- C1 counterexample: the claim fails as stated.  A text value consisting
of one backslash goes through the verbatim-quoting fast path, which stores
three characters (quote, backslash, quote); json.loads reads the backslash
as an escape of the closing quote, runs off the end of the text and fails,
so decoding does not restore the original value. -/
theorem fastpath_backslash_not_roundtrip :
    ¬ pyLoads (jsonize (JVal.str "\\")) = some (JVal.str "\\") := by decide

/-- C1 (amended): decoding the encoder output restores every supported
value (text, integer number, boolean, null, sequence or mapping in
canonical key-sorted form, recursively) except that a top-level text value
round-trips only when it is fast-path safe, i.e. free of quote, backslash
and control characters, because the fast path quotes it verbatim without
escaping; nested text values are escaped by the general encoder and are
unrestricted. -/
theorem jsonize_roundtrip_amended (v : JVal) (hc : canon v = true)
    (hsafe : ∀ s, v = JVal.str s → strSafe s = true) :
    pyLoads (jsonize v) = some v := by
  cases v with
  | str s =>
      have hs := hsafe s rfl
      have hall : ∀ c ∈ s.data, ¬ c = '"' ∧ ¬ c = '\\' ∧ 0x20 ≤ c.toNat := by
        intro c hcmem
        have hp := List.all_eq_true.1 hs c hcmem
        have hp2 : (¬ c = '"' ∧ ¬ c = '\\') ∧ 32 ≤ c.toNat := by
          simpa [Bool.and_eq_true, decide_eq_true_eq] using hp
        exact ⟨hp2.1.1, hp2.1.2, hp2.2⟩
      show (match parseVal (('"' :: (s.data ++ ['"'])).length + 1)
          ('"' :: (s.data ++ ['"'])) with
        | some (w, r) => if skipWs r = [] then some w else none
        | none => none) = some (JVal.str s)
      rw [pv_quote, show s.data ++ ['"'] = s.data ++ ('"' :: []) from rfl,
        parseStrAux_verbatim s.data hall [] []]
      rfl
  | null =>
      rw [jsonize_eq_general JVal.null (fun s h => JVal.noConfusion h),
        sortAll_canon _ hc]
      exact pyLoads_render _ hc
  | bool b =>
      rw [jsonize_eq_general (JVal.bool b) (fun s h => JVal.noConfusion h),
        sortAll_canon _ hc]
      exact pyLoads_render _ hc
  | num n =>
      rw [jsonize_eq_general (JVal.num n) (fun s h => JVal.noConfusion h),
        sortAll_canon _ hc]
      exact pyLoads_render _ hc
  | arr xs =>
      rw [jsonize_eq_general (JVal.arr xs) (fun s h => JVal.noConfusion h),
        sortAll_canon _ hc]
      exact pyLoads_render _ hc
  | obj ms =>
      rw [jsonize_eq_general (JVal.obj ms) (fun s h => JVal.noConfusion h),
        sortAll_canon _ hc]
      exact pyLoads_render _ hc
  | timeStruct t => simp [canon] at hc
  | other s => simp [canon] at hc

theorem jsonize_roundtrip_amended_witness :
    pyLoads (jsonize (JVal.obj [("k", JVal.arr [JVal.num (-12), JVal.str "a b"]),
        ("z", JVal.bool true)]))
      = some (JVal.obj [("k", JVal.arr [JVal.num (-12), JVal.str "a b"]),
        ("z", JVal.bool true)])
    ∧ pyLoads (jsonize (JVal.str "plain text"))
      = some (JVal.str "plain text") :=
  ⟨jsonize_roundtrip_amended _ (by decide) (fun s h => JVal.noConfusion h),
    jsonize_roundtrip_amended (JVal.str "plain text") (by decide)
      (fun s h => by injection h with h2; rw [← h2]; decide)⟩

/-- C3 counterexample: the claim fails as stated.  Assigning a value of an
unsupported kind does not raise any encoding error: the write succeeds and
a record is inserted, holding the fallback tagged representation, which
decodes to the tagged object. -/
theorem unsupported_value_set_succeeds :
    setitem [] "k" (JVal.other "x") = .ok [("k", jsonize (JVal.other "x"))]
    ∧ pyLoads (jsonize (JVal.other "x"))
      = some (JVal.obj [("__class__", JVal.str "basestring"),
          ("__value__", JVal.str "x")]) := by
  exact ⟨by decide, by decide⟩

/-- C3 (amended): a value of an unsupported kind is not a write-time error.
json.dumps hands it to the to_json default hook, stores the tagged
representation the hook returns, and set writes a record as for any other
value: with no existing record the row is appended, and reading the key
back decodes to the tagged object, for the time.struct_time kind and the
generic str() fallback alike. -/
theorem unsupported_fallback_tagged (s : Store) (k o t : String)
    (hl : lookupVal s k = none) :
    setitem s k (JVal.other o) = .ok (s ++ [(k, jsonize (JVal.other o))])
    ∧ pyLoads (jsonize (JVal.other o)) = some (to_json (JVal.other o))
    ∧ setitem s k (JVal.timeStruct t) = .ok (s ++ [(k, jsonize (JVal.timeStruct t))])
    ∧ pyLoads (jsonize (JVal.timeStruct t)) = some (to_json (JVal.timeStruct t)) := by
  have hkey := (getitem_eq_keyError_iff s k).2 hl
  exact ⟨setitem_of_keyError s k (JVal.other o) hkey, pyLoads_jsonize_other o,
    setitem_of_keyError s k (JVal.timeStruct t) hkey, pyLoads_jsonize_timeStruct t⟩

theorem unsupported_fallback_tagged_witness :
    setitem [] "k" (JVal.other "obj") = .ok [("k", jsonize (JVal.other "obj"))]
    ∧ pyLoads (jsonize (JVal.other "obj")) = some (to_json (JVal.other "obj")) :=
  have h := unsupported_fallback_tagged [] "k" "obj" "Sun Oct 12 00:00:00 2025" rfl
  ⟨h.1, h.2.1⟩
